import Mathlib

/-!
# Verification of `advent-of-code-2020` (Rust)

Shallow embedding of the parts of the repository needed to settle the frozen
claims: the day selector in `src/main.rs`, the day-1 / day-13 / day-14 input
parsers, the day-13 shuttle search (Chinese-Remainder-style congruence
merging), the day-14 bitmask address expansion, the day-15 memory game, and
the day-17 three/four-dimensional cellular automata.

Conventions used throughout the embedding:

* Rust `usize` / `u32` values are modelled as `Nat`; every explicit `as`
  cast in the source is modelled by the corresponding `% 2^w` truncation
  (`as u32` by `% 2^32`, `as usize` of an `i32` by sign-extension into the
  64-bit range).  Arithmetic that the source performs without casts is
  modelled exactly (the programs are run on inputs where it does not
  overflow); `-` on unsigned values appears in the source only where the
  subtrahend is provably not larger, which `Nat.sub` models exactly.
* `isize` / `i32` values are modelled as `Int`.
* A Rust `panic!` / `expect` / failed `unwrap` aborts the current run; a
  function that can abort is modelled with an `Option` result, `none`
  meaning the abort.
* Rust `HashSet` values whose only observed operations are insert / remove /
  contains / len are modelled as `Finset`; the nested
  `HashMap<_, HashMap<_, HashSet<_>>>` grid of day 17 is modelled by the
  `Finset` of coordinates it contains, which carries exactly the information
  the program reads back out of it.
* The unbounded `loop` of day 13 is modelled with an explicit fuel
  parameter; `none` for "did not terminate within `fuel` steps".
-/

namespace AoC2020

/-! ## Day 15 — `src/day_15.rs` -/

namespace Day15

/-- Helper for `play_memory_game`: the write
`if memory.len() < idx + 1 { memory.resize(idx + 1, 0) }; memory[idx] = val`
from `src/day_15.rs` lines 120-124. -/
def writeMem (memory : List ℕ) (idx val : ℕ) : List ℕ :=
  (if memory.length < idx + 1 then
    memory ++ List.replicate (idx + 1 - memory.length) 0
  else memory).set idx val

/-- One iteration of the `for pos in 0..iterations` loop of
`play_memory_game` (`src/day_15.rs` lines 109-126).  The state is
`(curr, memory)`; `prev` is the old `curr`.  `seedMax` is the pre-computed
`seed.len() as u32`. -/
def stepGame (seed : List ℕ) (seedMax : ℕ) (state : ℕ × List ℕ) (pos : ℕ) :
    ℕ × List ℕ :=
  let curr := state.1
  let memory := state.2
  let curr' :=
    if pos < seedMax then seed.getD pos 0
    else
      let lastSeen := memory.getD curr 0
      if lastSeen = 0 then 0 else pos - lastSeen
  let memory' := if 0 < pos then writeMem memory curr pos else memory
  (curr', memory')

/-- Embedding of `play_memory_game` (`src/day_15.rs` lines 103-129).
`seed_max` is `seed.len() as u32`, i.e. the length truncated to 32 bits. -/
def play_memory_game (seed : List ℕ) (iterations : ℕ) : ℕ :=
  ((List.range iterations).foldl (stepGame seed (seed.length % 2 ^ 32))
    (0, [])).1

end Day15

/-! ## Shared parsing helpers

Rust's `str::parse::<usize>` / `str::parse::<i32>`, used by the day
modules.  `usize::from_str` accepts an optional leading `'+'` followed by
one or more ASCII digits and fails on overflow; `i32::from_str` also
accepts a leading `'-'`. -/

/-- Numeric value of a digit string (most significant first). -/
def digitsVal (cs : List Char) : ℕ :=
  cs.foldl (fun a c => a * 10 + (c.toNat - '0'.toNat)) 0

/-- Embedding of Rust's `str::split(char)`: cut the character list at every
occurrence of `sep`; adjacent separators and separators at either end
produce empty chunks, and the empty input produces one empty chunk. -/
def splitOnChar (sep : Char) : List Char → List (List Char)
  | [] => [[]]
  | c :: rest =>
    if c = sep then [] :: splitOnChar sep rest
    else
      match splitOnChar sep rest with
      | [] => [[c]]
      | chunk :: chunks => (c :: chunk) :: chunks

/-- Embedding of `str::parse::<usize>`: optional `'+'` sign, then a
non-empty run of ASCII digits whose value fits in 64 bits. -/
def parseUsize (s : String) : Option ℕ :=
  let cs := s.data
  let cs := if cs.head? = some '+' then cs.tail else cs
  if cs ≠ [] ∧ cs.all (·.isDigit) ∧ digitsVal cs < 2 ^ 64 then
    some (digitsVal cs)
  else none

/-- Embedding of `str::parse::<i32>`: optional `'+'` or `'-'` sign, then a
non-empty run of ASCII digits whose value fits in the `i32` range. -/
def parseI32 (s : String) : Option ℤ :=
  let cs := s.data
  let neg := cs.head? = some '-'
  let cs := if cs.head? = some '+' ∨ cs.head? = some '-' then cs.tail else cs
  if cs ≠ [] ∧ cs.all (·.isDigit) then
    if neg then
      if digitsVal cs ≤ 2 ^ 31 then some (-(digitsVal cs : ℤ)) else none
    else
      if digitsVal cs < 2 ^ 31 then some (digitsVal cs : ℤ) else none
  else none

/-- Embedding of the Rust range expression `a..=b` (as iterated by the
day-17 `for` loops) as the list of its values in order (empty when
`b < a`). -/
def rangeInc (a b : ℤ) : List ℤ :=
  (List.range (b + 1 - a).toNat).map (fun i : ℕ => a + (i : ℤ))

/-! ## Day 13 — `src/day_13.rs` -/

namespace Day13

/-- 64-bit wrapping subtraction: for `a, b < 2 ^ 64` this is the value of
Rust's release-mode `a - b` on `usize` (equal to `a - b` when `b ≤ a`,
wrapping around otherwise). -/
def wsub (a b : ℕ) : ℕ := (a + 2 ^ 64 - b) % 2 ^ 64

/-- Embedding of `next_departure` (`src/day_13.rs` lines 60-66): the wait
time from `timestamp` until the next multiple of `bus_id`, computed in
release-mode `usize` arithmetic — the product `((timestamp - 1) / bus_id
+ 1) * bus_id` wraps at `2 ^ 64`, as does the final subtraction.  (A zero
`bus_id`, a division-by-zero panic in Rust, is outside every use below:
the claim and the callers restrict to positive bus ids.) -/
def next_departure (timestamp bus_id : ℕ) : ℕ :=
  if timestamp = 0 then 0
  else wsub ((((timestamp - 1) / bus_id + 1) * bus_id) % 2 ^ 64) timestamp

/-- The same computation in exact (unbounded) arithmetic: an analysis
device relating the wrapped `next_departure` to number theory.  The two
agree whenever `timestamp + bus_id ≤ 2 ^ 64` (`next_departure_eq_U`). -/
def next_departureU (timestamp bus_id : ℕ) : ℕ :=
  if timestamp = 0 then 0
  else ((timestamp - 1) / bus_id + 1) * bus_id - timestamp

/-- Embedding of the unbounded `loop` inside
`find_sequential_departure_iter` (`src/day_13.rs` lines 136-153), with an
explicit fuel bound on the number of iterations.  State: `position` (the
current multiple of `period_a`) and `first` (`first_timestamp`, `0` while
unset).  Returns `(first_timestamp, second_timestamp)` at the `break`.
The accumulation `position = position + period_a` is a release-mode
`usize` addition and wraps at `2 ^ 64`, as on line 137 of the source. -/
def crtLoop (offA pA offB pB : ℕ) : ℕ → ℕ → ℕ → Option (ℕ × ℕ)
  | 0, _, _ => none
  | fuel + 1, position, first =>
    let position' := (position + pA) % 2 ^ 64
    if position' < offA then crtLoop offA pA offB pB fuel position' first
    else
      let base := position' - offA
      if next_departure base pB = offB % pB then
        if first = 0 then crtLoop offA pA offB pB fuel position' base
        else some (first, base)
      else crtLoop offA pA offB pB fuel position' first

/-- The same loop in exact (unbounded) arithmetic: an analysis device for
the number-theoretic correctness argument.  It agrees with `crtLoop`
whenever the run stays below `2 ^ 64` (`crtLoop_eq_U`). -/
def crtLoopU (offA pA offB pB : ℕ) : ℕ → ℕ → ℕ → Option (ℕ × ℕ)
  | 0, _, _ => none
  | fuel + 1, position, first =>
    let position' := position + pA
    if position' < offA then crtLoopU offA pA offB pB fuel position' first
    else
      let base := position' - offA
      if next_departureU base pB = offB % pB then
        if first = 0 then crtLoopU offA pA offB pB fuel position' base
        else some (first, base)
      else crtLoopU offA pA offB pB fuel position' first

/-- The body of `find_sequential_departure_iter` around the loop
(`src/day_13.rs` lines 122-156): swap so the larger period drives the
loop (the tail-recursive swap on line 124-126 is inlined), then derive
`(new_offset, new_period)` from the two confluence timestamps, in
release-mode (wrapping) `usize` arithmetic. -/
def mergePair (acc next : ℕ × ℕ) (fuel : ℕ) : Option (ℕ × ℕ) :=
  let p := if acc.2 < next.2 then (next, acc) else (acc, next)
  match crtLoop p.1.1 p.1.2 p.2.1 p.2.2 fuel 0 0 with
  | none => none
  | some (t1, t2) => some (next_departure t2 (wsub t2 t1), wsub t2 t1)

/-- Embedding of `find_sequential_departure_iter` (`src/day_13.rs` lines
122-166): merge `acc` with `next`, then recurse through the remaining
bus ids; on exhaustion the answer is `new_period - new_offset` (a
release-mode `usize` subtraction). -/
def find_sequential_departure_iter (fuel : ℕ) :
    (ℕ × ℕ) → (ℕ × ℕ) → List (ℕ × ℕ) → Option ℕ
  | acc, next, remaining =>
    match mergePair acc next fuel with
    | none => none
    | some m =>
      match remaining with
      | [] => some (wsub m.2 m.1)
      | n :: rest => find_sequential_departure_iter fuel m n rest

/-- Embedding of `find_sequential_departure` (`src/day_13.rs` lines
169-172); `none` models the `expect` panic on an empty bus list. -/
def find_sequential_departure (fuel : ℕ) (bus_ids : List (ℕ × ℕ)) :
    Option ℕ :=
  match bus_ids with
  | [] => none
  | first :: rest => find_sequential_departure_iter fuel (0, 1) first rest

/-- Embedding of `parse_input` (`src/day_13.rs` lines 40-54) over the list
of input lines: the first line must parse as a timestamp (`expect` aborts
otherwise), the second line is split on `','` and entries that fail to
parse are dropped by `filter_map`. -/
def parse_input (lines : List String) : Option (ℕ × List (ℕ × ℕ)) :=
  match lines with
  | [] => none
  | l1 :: rest =>
    match parseUsize l1 with
    | none => none
    | some timestamp =>
      match rest with
      | [] => none
      | l2 :: _ =>
        some (timestamp,
          ((splitOnChar ',' l2.data).map String.mk).enum.filterMap
            (fun p => (parseUsize p.2).map (fun b => (p.1, b))))

end Day13

/-! ## Day 17 — `src/day_17.rs` -/

namespace Day17

/-- Embedding of `ThreeDGrid` (`src/day_17.rs` lines 38-54).  The nested
`HashMap<isize, HashMap<isize, HashSet<isize>>>` is modelled by the set of
coordinates it contains (the only information `is_cell_active` /
`count_active` read back out of it); the six bound fields are kept
verbatim. -/
structure ThreeDGrid where
  cells : Finset (ℤ × ℤ × ℤ)
  x_min : ℤ
  x_max : ℤ
  y_min : ℤ
  y_max : ℤ
  z_min : ℤ
  z_max : ℤ
  deriving DecidableEq

/-- Embedding of `ThreeDGrid::new` (`src/day_17.rs` lines 57-67). -/
def ThreeDGrid.new : ThreeDGrid := ⟨∅, 0, 0, 0, 0, 0, 0⟩

/-- Embedding of `ThreeDGrid::is_cell_active` (`src/day_17.rs` lines
70-75). -/
def ThreeDGrid.is_cell_active (g : ThreeDGrid) (x y z : ℤ) : Prop :=
  (x, y, z) ∈ g.cells

instance (g : ThreeDGrid) (x y z : ℤ) : Decidable (g.is_cell_active x y z) :=
  decidable_of_iff ((x, y, z) ∈ g.cells) Iff.rfl

/-- Embedding of `ThreeDGrid::toggle_cell` (`src/day_17.rs` lines 78-107):
insert or remove the cell, and widen the recorded bounds when activating. -/
def ThreeDGrid.toggle_cell (g : ThreeDGrid) (x y z : ℤ) (active : Bool) :
    ThreeDGrid where
  cells := if active then insert (x, y, z) g.cells else g.cells.erase (x, y, z)
  x_min := if active then min g.x_min x else g.x_min
  x_max := if active then max g.x_max x else g.x_max
  y_min := if active then min g.y_min y else g.y_min
  y_max := if active then max g.y_max y else g.y_max
  z_min := if active then min g.z_min z else g.z_min
  z_max := if active then max g.z_max z else g.z_max

/-- Embedding of `ThreeDGrid::count_active` (`src/day_17.rs` lines
110-115). -/
def ThreeDGrid.count_active (g : ThreeDGrid) : ℕ := g.cells.card

/-- The 27-cell box that the three nested loops of `count_adjacent` visit,
in iteration order (`z` outermost, `x` innermost). -/
def box3 (x y z : ℤ) : List (ℤ × ℤ × ℤ) :=
  (rangeInc (z - 1) (z + 1)).flatMap fun z1 =>
    (rangeInc (y - 1) (y + 1)).flatMap fun y1 =>
      (rangeInc (x - 1) (x + 1)).map fun x1 => (x1, y1, z1)

/-- Embedding of `ThreeDGrid::count_adjacent` (`src/day_17.rs` lines
122-136): active cells among the 26 neighbours (the centre is skipped by
the `continue`). -/
def ThreeDGrid.count_adjacent (g : ThreeDGrid) (x y z : ℤ) : ℕ :=
  (box3 x y z).countP fun c =>
    decide (¬(c.2.2 = z ∧ c.2.1 = y ∧ c.1 = x) ∧
      g.is_cell_active c.1 c.2.1 c.2.2)

/-- The new activation value computed for one cell inside the
`iterate_grid_3d` loops (`src/day_17.rs` lines 426-431), reading the old
grid. -/
def lifeRule3 (grid : ThreeDGrid) (c : ℤ × ℤ × ℤ) : Bool :=
  let adjacent := grid.count_adjacent c.1 c.2.1 c.2.2
  if grid.is_cell_active c.1 c.2.1 c.2.2 then adjacent == 2 || adjacent == 3
  else adjacent == 3

/-- The cells visited by the three nested loops of `iterate_grid_3d`: the
recorded bounds extended by one in each direction, in iteration order. -/
def iterBox3 (grid : ThreeDGrid) : List (ℤ × ℤ × ℤ) :=
  (rangeInc (grid.z_min - 1) (grid.z_max + 1)).flatMap fun z =>
    (rangeInc (grid.y_min - 1) (grid.y_max + 1)).flatMap fun y =>
      (rangeInc (grid.x_min - 1) (grid.x_max + 1)).map fun x => (x, y, z)

/-- Embedding of `iterate_grid_3d` (`src/day_17.rs` lines 421-438): start
from a clone of the old grid and toggle every cell of the extended bounding
box to the value given by the life rule evaluated on the old grid. -/
def iterate_grid_3d (grid : ThreeDGrid) : ThreeDGrid :=
  (iterBox3 grid).foldl
    (fun ng c => ng.toggle_cell c.1 c.2.1 c.2.2 (lifeRule3 grid c)) grid

/-- Embedding of `parse_input_3d` (`src/day_17.rs` lines 335-345): cell
`(x, y, 0)` is set to whether character `x` of line `y` is `'#'`. -/
def parse_input_3d (lines : List String) : ThreeDGrid :=
  lines.enum.foldl
    (fun g ly =>
      ly.2.data.enum.foldl
        (fun g2 lx => g2.toggle_cell (lx.1 : ℤ) (ly.1 : ℤ) 0 (lx.2 == '#'))
        g)
    ThreeDGrid.new

/-- Embedding of `FourDGrid` (`src/day_17.rs` lines 163-172): a map from
`w` coordinates to 3D grids (modelled as an association list with at most
one entry per key) plus recorded `w` bounds. -/
structure FourDGrid where
  grid : List (ℤ × ThreeDGrid)
  w_min : ℤ
  w_max : ℤ

/-- Embedding of `FourDGrid::new` (`src/day_17.rs` lines 175-181). -/
def FourDGrid.new : FourDGrid := ⟨[], 0, 0⟩

/-- Embedding of `FourDGrid::is_cell_active` (`src/day_17.rs` lines
184-186). -/
def FourDGrid.is_cell_active (g : FourDGrid) (x y z w : ℤ) : Prop :=
  match g.grid.lookup w with
  | none => False
  | some cube => cube.is_cell_active x y z

instance (g : FourDGrid) (x y z w : ℤ) :
    Decidable (g.is_cell_active x y z w) := by
  unfold FourDGrid.is_cell_active
  match g.grid.lookup w with
  | none => exact isFalse id
  | some cube => exact inferInstanceAs (Decidable (cube.is_cell_active x y z))

/-- Replacement of the entry at key `w` in the association list backing a
`FourDGrid` (insertion at the tail if absent), modelling
`HashMap::insert` / `get_mut`. -/
def updateCube : List (ℤ × ThreeDGrid) → ℤ → ThreeDGrid →
    List (ℤ × ThreeDGrid)
  | [], w, c => [(w, c)]
  | p :: rest, w, c =>
    if p.1 = w then (w, c) :: rest else p :: updateCube rest w c

/-- Embedding of `FourDGrid::toggle_cell` (`src/day_17.rs` lines 240-253):
toggle inside the cube stored at `w` (a fresh `ThreeDGrid::new` if absent)
and widen the `w` bounds when activating. -/
def FourDGrid.toggle_cell (g : FourDGrid) (x y z w : ℤ) (active : Bool) :
    FourDGrid where
  grid :=
    updateCube g.grid w
      (((g.grid.lookup w).getD ThreeDGrid.new).toggle_cell x y z active)
  w_min := if active then min g.w_min w else g.w_min
  w_max := if active then max g.w_max w else g.w_max

/-- Embedding of `FourDGrid::count_active` (`src/day_17.rs` lines
256-258). -/
def FourDGrid.count_active (g : FourDGrid) : ℕ :=
  (g.grid.map (fun p => p.2.count_active)).sum

/-- The 81-cell box that the four nested loops of the 4D `count_adjacent`
visit, in iteration order (`w` outermost, `x` innermost). -/
def box4 (x y z w : ℤ) : List (ℤ × ℤ × ℤ × ℤ) :=
  (rangeInc (w - 1) (w + 1)).flatMap fun w1 =>
    (rangeInc (z - 1) (z + 1)).flatMap fun z1 =>
      (rangeInc (y - 1) (y + 1)).flatMap fun y1 =>
        (rangeInc (x - 1) (x + 1)).map fun x1 => (x1, y1, z1, w1)

/-- Embedding of `FourDGrid::count_adjacent` (`src/day_17.rs` lines
272-288). -/
def FourDGrid.count_adjacent (g : FourDGrid) (x y z w : ℤ) : ℕ :=
  (box4 x y z w).countP fun c =>
    decide (¬(c.2.2.1 = z ∧ c.2.1 = y ∧ c.1 = x ∧ c.2.2.2 = w) ∧
      g.is_cell_active c.1 c.2.1 c.2.2.1 c.2.2.2)

/-- Embedding of `FourDGrid::get_bounds` (`src/day_17.rs` lines 291-306):
fold min/max of the inner 3D bounds, seeded with zeros for `x`/`y`/`z` and
the recorded bounds for `w`. -/
def FourDGrid.get_bounds (g : FourDGrid) :
    (ℤ × ℤ) × (ℤ × ℤ) × (ℤ × ℤ) × (ℤ × ℤ) :=
  g.grid.foldl
    (fun b p =>
      ((min b.1.1 p.2.x_min, max b.1.2 p.2.x_max),
       (min b.2.1.1 p.2.y_min, max b.2.1.2 p.2.y_max),
       (min b.2.2.1.1 p.2.z_min, max b.2.2.1.2 p.2.z_max),
       b.2.2.2))
    ((0, 0), (0, 0), (0, 0), (g.w_min, g.w_max))

/-- The new activation value computed for one cell inside the
`iterate_grid_4d` loops (`src/day_17.rs` lines 479-484). -/
def lifeRule4 (grid : FourDGrid) (c : ℤ × ℤ × ℤ × ℤ) : Bool :=
  let adjacent := grid.count_adjacent c.1 c.2.1 c.2.2.1 c.2.2.2
  if grid.is_cell_active c.1 c.2.1 c.2.2.1 c.2.2.2 then
    adjacent == 2 || adjacent == 3
  else adjacent == 3

/-- The cells visited by the four nested loops of `iterate_grid_4d`: the
`get_bounds` box extended by one in each direction, in iteration order. -/
def iterBox4 (grid : FourDGrid) : List (ℤ × ℤ × ℤ × ℤ) :=
  let b := grid.get_bounds
  (rangeInc (b.2.2.2.1 - 1) (b.2.2.2.2 + 1)).flatMap fun w =>
    (rangeInc (b.2.2.1.1 - 1) (b.2.2.1.2 + 1)).flatMap fun z =>
      (rangeInc (b.2.1.1 - 1) (b.2.1.2 + 1)).flatMap fun y =>
        (rangeInc (b.1.1 - 1) (b.1.2 + 1)).map fun x => (x, y, z, w)

/-- Embedding of `iterate_grid_4d` (`src/day_17.rs` lines 471-492). -/
def iterate_grid_4d (grid : FourDGrid) : FourDGrid :=
  (iterBox4 grid).foldl
    (fun ng c => ng.toggle_cell c.1 c.2.1 c.2.2.1 c.2.2.2 (lifeRule4 grid c))
    grid

/-- Embedding of `parse_input_4d` (`src/day_17.rs` lines 366-376). -/
def parse_input_4d (lines : List String) : FourDGrid :=
  lines.enum.foldl
    (fun g ly =>
      ly.2.data.enum.foldl
        (fun g2 lx =>
          g2.toggle_cell (lx.1 : ℤ) (ly.1 : ℤ) 0 0 (lx.2 == '#'))
        g)
    FourDGrid.new

/-- Specification-side predicate for C5/C8: every active cell lies within
the grid's recorded bounds. -/
def InBounds3 (g : ThreeDGrid) : Prop :=
  ∀ p ∈ g.cells,
    g.x_min ≤ p.1 ∧ p.1 ≤ g.x_max ∧ g.y_min ≤ p.2.1 ∧ p.2.1 ≤ g.y_max ∧
      g.z_min ≤ p.2.2 ∧ p.2.2 ≤ g.z_max

instance (g : ThreeDGrid) : Decidable (InBounds3 g) :=
  decidable_of_iff _ (by rw [InBounds3])

/-- Specification-side predicate for C8 on 4D grids: every stored cube
satisfies its own 3D bounds invariant, and every `w` holding an active
cell lies within the recorded `w` bounds. -/
def InBounds4 (g : FourDGrid) : Prop :=
  ∀ p ∈ g.grid,
    InBounds3 p.2 ∧ ∀ c ∈ p.2.cells, g.w_min ≤ p.1 ∧ p.1 ≤ g.w_max

instance (g : FourDGrid) : Decidable (InBounds4 g) :=
  decidable_of_iff _ (by rw [InBounds4])

end Day17

/-! ## Day 14 — `src/day_14.rs` -/

namespace Day14

/-- Embedding of `Mask` (`src/day_14.rs` line 34). -/
structure Mask where
  mask : ℕ
  data : ℕ
  deriving DecidableEq

/-- Embedding of `Mem` (`src/day_14.rs` line 38). -/
structure Mem where
  address : ℕ
  value : ℕ
  deriving DecidableEq

/-- Embedding of Rust's `str::split(" = ")` on character lists: cut at
every (leftmost-first) occurrence of the three-character separator. -/
def splitEqSep : List Char → List (List Char)
  | [] => [[]]
  | ' ' :: '=' :: ' ' :: rest => [] :: splitEqSep rest
  | c :: rest =>
    match splitEqSep rest with
    | [] => [[c]]
    | chunk :: chunks => (c :: chunk) :: chunks

/-- Embedding of the regex `^mem\[(\d+)]$` of `parse_line`
(`src/day_14.rs` line 103): returns the digit capture when the whole
string is `mem[` followed by one or more digits and a closing `]`. -/
def matchMem (cs : List Char) : Option (List Char) :=
  match cs with
  | 'm' :: 'e' :: 'm' :: '[' :: rest =>
    let ds := rest.takeWhile (·.isDigit)
    if ds ≠ [] ∧ rest.drop ds.length = [']'] then some ds else none
  | _ => none

/-- One step of the mask-building fold of `parse_line` (`src/day_14.rs`
lines 93-99): `mask << 1 | (c == 'X')` and `data << 1 | (c == '1')`, with
the 64-bit truncation Rust's `<<` performs on `usize`. -/
def maskFold (md : ℕ × ℕ) (c : Char) : ℕ × ℕ :=
  ((md.1 * 2 + (if c = 'X' then 1 else 0)) % 2 ^ 64,
   (md.2 * 2 + (if c = '1' then 1 else 0)) % 2 ^ 64)

/-- Embedding of `parse_line` (`src/day_14.rs` lines 86-113): split on
`" = "`; a missing value part or a non-`mask` instruction that fails the
`mem` regex or whose numbers fail to parse aborts (`expect` / `panic!` /
`unwrap`); a `mask` payload is folded bitwise with `X` → mask bit and
`1` → data bit. -/
def parse_line (line : String) : Option (Mask ⊕ Mem) :=
  match splitEqSep line.data with
  | [] => none
  | [_] => none
  | inst :: value :: _ =>
    if inst = "mask".data then
      let md := value.foldl maskFold (0, 0)
      some (Sum.inl ⟨md.1, md.2⟩)
    else
      match matchMem inst with
      | none => none
      | some ds =>
        match parseUsize (String.mk ds), parseUsize (String.mk value) with
        | some addr, some v => some (Sum.inr ⟨addr, v⟩)
        | _, _ => none

/-- The doubling step of `explode_addresses` (`src/day_14.rs` lines
248-257): add a copy of every address with bit `i` forced on. -/
def orStep (addresses : Finset ℕ) (i : ℕ) : Finset ℕ :=
  addresses ∪ addresses.image (fun a => a ||| (1 <<< i))

/-- Embedding of `explode_addresses` (`src/day_14.rs` lines 242-261):
start from `(input | mask.data) & !mask.mask` (the 64-bit complement of
the mask) and, for each of bits `0..36` set in `mask.mask`, double the set
by also taking every address with that bit forced on. -/
def explode_addresses (m : Mask) (input : ℕ) : Finset ℕ :=
  (List.range 36).foldl
    (fun addresses i =>
      if (1 <<< i) &&& m.mask ≠ 0 then orStep addresses i else addresses)
    {(input ||| m.data) &&& ((2 ^ 64 - 1) ^^^ m.mask)}

end Day14

/-! ## Day 1 — `src/day_1.rs` -/

namespace Day1

/-- Embedding of `read_to_ints` (`src/day_1.rs` lines 35-37) over the list
of input lines: `flat_map(|line| line.parse::<i32>().ok())` keeps the
lines that parse and silently drops the rest. -/
def read_to_ints (lines : List String) : List ℤ :=
  lines.filterMap parseI32

end Day1

/-! ## The day selector — `src/main.rs`

The effect model: a `World` is the read-only file system together with the
lines printed so far.  Each day's `run` function has the effect shape
"read one fixed input file (abort when missing), then compute and print
lines that depend only on that file's contents" — except day 15, whose
input is the hardcoded string `"8,11,0,19,1,2"` and which reads no file.
The per-day pure pipelines (parse + compute + format) are abstracted as a
parameter `P`, since the selector and the claims about it are independent
of them; the fully embedded pipelines of days 13/14/15/17 above are
instances.  Timing output (`{:.2?}` durations) is wall-clock and is
modelled by fixed placeholder lines. -/

namespace Runner

/-- The state visible to the program: the (read-only) file system and the
standard-output lines printed so far. -/
structure World where
  fs : String → Option String
  out : List String

/-- The input file paths passed to `fs::read_to_string` by each day's
`run`, in day order, transcribed from `src/day_1.rs` … `src/day_17.rs`;
day 15 (`src/day_15.rs` lines 17-25) reads no file. -/
def dayPaths : List (Option String) :=
  [some "res/day-1-input", some "res/day-2-input", some "res/day-3-input",
   some "res/day-4-input", some "res/day-5-input", some "res/day-6-input",
   some "res/day-7-input", some "res/day-8-input", some "res/day-9-input",
   some "res/day-10-input", some "res/day-11-input", some "res/day-12-input",
   some "res/day-13-input", some "res/day-14-input", none,
   some "res/day-16-input", some "res/day-17-input"]

/-- The input file path of day `i + 1` (`none` for day 15). -/
def dayPath (i : Fin 17) : Option String := dayPaths.getD i.val none

/-- The hardcoded input of day 15 (`src/day_15.rs` line 18). -/
def day15Contents : String := "8,11,0,19,1,2"

/-- The puzzle-input contents a day's `run` computes from: the day's file
(aborting, `none`, when absent) — or the hardcoded string for day 15. -/
def dayInput (fs : String → Option String) (i : Fin 17) : Option String :=
  match dayPath i with
  | none => some day15Contents
  | some path => fs path

/-- The effect shape of every day's `run` (`pub fn run()` of each day
module): obtain the input, then print lines computed purely from it.
`none` models the `expect("Failed to read file")` panic. -/
def dayRun (P : Fin 17 → String → List String) (i : Fin 17) (w : World) :
    Option World :=
  match dayInput w.fs i with
  | none => none
  | some contents => some ⟨w.fs, w.out ++ P i contents⟩

/-- The lines a run appended to the output of the starting world `w`. -/
def newOut (w : World) (r : Option World) : Option (List String) :=
  r.map (fun w' => w'.out.drop w.out.length)

/-- The prompt printed by `main` (`src/main.rs` line 32). -/
def mainPrompt : String := "Which day? (0 to run all): "

/-- Wrapping of a mathematical integer to the `i32` range, the release
semantics of `day - 1` (`src/main.rs` line 57). -/
def wrap32 (v : ℤ) : ℤ := (v + 2 ^ 31) % 2 ^ 32 - 2 ^ 31

/-- The `as usize` cast of an `i32` value on a 64-bit target:
reinterpretation of the sign-extended value. -/
def usizeOfI32 (v : ℤ) : ℕ := (v % 2 ^ 64).toNat

/-- The index `(day - 1) as usize` computed by `main`
(`src/main.rs` line 57). -/
def selectedIndex (day : ℤ) : ℕ := usizeOfI32 (wrap32 (day - 1))

/-- One step of the run-all loop (`src/main.rs` lines 59-64): print the
day header, run the day, print the elapsed-time line; a panic stops the
whole loop. -/
def runAllStep (P : Fin 17 → String → List String) (ow : Option World)
    (i : Fin 17) : Option World :=
  match ow with
  | none => none
  | some w =>
    match dayRun P i
        ⟨w.fs, w.out ++ ["==== Day " ++ toString (i.val + 1) ++ " ===="]⟩ with
    | none => none
    | some w' => some ⟨w'.fs, w'.out ++ ["-- took <elapsed>"]⟩

/-- The final prints of `main` (`src/main.rs` lines 68-69). -/
def finishWorld : Option World → Option World
  | none => none
  | some w => some ⟨w.fs, w.out ++ ["", "Finished in <elapsed>"]⟩

/-- Embedding of `main` (`src/main.rs` lines 31-70): print the prompt,
compute `(day - 1) as usize`, and run the selected day, or all days when
the index misses and `day == 0`, or print the `Invalid Day` report. -/
def mainRun (P : Fin 17 → String → List String) (day : ℤ) (w : World) :
    Option World :=
  let w0 : World := ⟨w.fs, w.out ++ [mainPrompt]⟩
  finishWorld
    (if h : selectedIndex day < 17 then dayRun P ⟨selectedIndex day, h⟩ w0
     else if day = 0 then (List.finRange 17).foldl (runAllStep P) (some w0)
     else some ⟨w0.fs, w0.out ++ ["Invalid Day " ++ toString day]⟩)

end Runner

end AoC2020

/-! ## Theorems -/

namespace AoC2020

/-! ### Day 13: characterisation of `next_departureU` -/

namespace Day13

/-- The wait returned by `next_departureU` is shorter than the bus period. -/
theorem nd_lt (t : ℕ) {b : ℕ} (hb : 0 < b) : next_departureU t b < b := by
  unfold next_departureU
  split
  · exact hb
  · have h1 : (t - 1) / b * b ≤ t - 1 := Nat.div_mul_le_self _ _
    have h2 : ((t - 1) / b + 1) * b = (t - 1) / b * b + b := by ring
    rw [h2]
    generalize (t - 1) / b * b = A at h1 ⊢
    omega

/-- Waiting `next_departureU t b` from `t` lands on a multiple of `b`. -/
theorem nd_add_mod (t : ℕ) {b : ℕ} (hb : 0 < b) :
    (t + next_departureU t b) % b = 0 := by
  unfold next_departureU
  split
  · simp_all
  · have hmod := Nat.div_add_mod (t - 1) b
    have hlt : (t - 1) % b < b := Nat.mod_lt _ hb
    have h2 : ((t - 1) / b + 1) * b = b * ((t - 1) / b) + b := by ring
    have h3 : t + (((t - 1) / b + 1) * b - t) = ((t - 1) / b + 1) * b := by
      rw [h2]
      generalize b * ((t - 1) / b) = A at hmod ⊢
      omega
    rw [h3]
    exact Nat.mul_mod_left _ _

/-- Chief arithmetic fact about the loop's test: a wait `k` reaches a
multiple of `b` from `t` exactly when `k ≡ next_departureU t b (mod b)`. -/
theorem nd_iff (t k : ℕ) {b : ℕ} (hb : 0 < b) :
    (t + k) % b = 0 ↔ k % b = next_departureU t b := by
  have h0 := nd_add_mod t hb
  constructor
  · intro h
    have : t + k ≡ t + next_departureU t b [MOD b] := by
      unfold Nat.ModEq
      rw [h, h0]
    have h2 : k ≡ next_departureU t b [MOD b] := this.add_left_cancel' t
    rw [h2, Nat.mod_eq_of_lt (nd_lt t hb)]
  · intro h
    have h2 : k ≡ next_departureU t b [MOD b] := by
      unfold Nat.ModEq
      rw [h, Nat.mod_eq_of_lt (nd_lt t hb)]
    have h3 : t + k ≡ t + next_departureU t b [MOD b] := h2.add_left t
    unfold Nat.ModEq at h3
    rw [h0] at h3
    exact h3

/-- Membership in the arithmetic progression recorded by a merged
`(offset, period)` pair: `(u + next_departureU t L) % L = 0` holds exactly
for `u` congruent to `t` modulo `L`. -/
theorem nd_mem_iff (t u : ℕ) {L : ℕ} (hL : 0 < L) :
    (u + next_departureU t L) % L = 0 ↔ u % L = t % L := by
  have h0 := nd_add_mod t hL
  constructor
  · intro h
    have : u + next_departureU t L ≡ t + next_departureU t L [MOD L] := by
      unfold Nat.ModEq
      rw [h, h0]
    exact this.add_right_cancel' _
  · intro h
    have h2 : u + next_departureU t L ≡ t + next_departureU t L [MOD L] :=
      Nat.ModEq.add_right _ h
    unfold Nat.ModEq at h2
    rw [h0] at h2
    exact h2

end Day13

/-- During the seeding turns the game echoes the seed: the last loop
iteration reads `seed[pos]` whenever `pos < seed_max`. -/
theorem play_memory_game_echo (seed : List ℕ) (n : ℕ)
    (h2 : n + 1 ≤ seed.length) (h3 : seed.length < 2 ^ 32) :
    Day15.play_memory_game seed (n + 1) = seed.getD n 0 := by
  unfold Day15.play_memory_game
  rw [List.range_succ, List.foldl_append, List.foldl_cons, List.foldl_nil,
    Nat.mod_eq_of_lt h3]
  simp only [Day15.stepGame]
  rw [if_pos (by omega : n < seed.length)]

/-- C10: for `1 ≤ iterations ≤ seed.length`, `play_memory_game` returns
`seed[iterations - 1]`, and `play_memory_game seed 0 = 0` — amended with
the hypothesis `seed.length < 2^32`, which the truncation
`seed.len() as u32` in `src/day_15.rs` line 107 makes necessary. -/
theorem C10_play_memory_game_seeding (seed : List ℕ) (iterations : ℕ)
    (h1 : 1 ≤ iterations) (h2 : iterations ≤ seed.length)
    (h3 : seed.length < 2 ^ 32) :
    Day15.play_memory_game seed iterations = seed.getD (iterations - 1) 0 ∧
    Day15.play_memory_game seed 0 = 0 := by
  refine ⟨?_, rfl⟩
  obtain ⟨n, rfl⟩ : ∃ n, iterations = n + 1 := ⟨iterations - 1, by omega⟩
  simpa using play_memory_game_echo seed n h2 h3

/-- Witness for `C10_play_memory_game_seeding` at `seed = [5, 7]`,
`iterations = 2`. -/
theorem C10_play_memory_game_seeding_witness :
    (1 ≤ 2 ∧ 2 ≤ ([5, 7] : List ℕ).length ∧ ([5, 7] : List ℕ).length < 2 ^ 32) ∧
    (Day15.play_memory_game [5, 7] 2 = ([5, 7] : List ℕ).getD 1 0 ∧
      Day15.play_memory_game [5, 7] 0 = 0) :=
  ⟨⟨by decide, by decide, by decide⟩,
    C10_play_memory_game_seeding [5, 7] 2 (by decide) (by decide) (by decide)⟩

/-- Evaluation of the first memory-game iteration when the seeding branch is
dead (`seed_max = 0`): the memory is empty, so the spoken number is `0`. -/
theorem stepGame_seedMax_zero (seed : List ℕ) :
    Day15.stepGame seed 0 (0, []) 0 = (0, []) := rfl

/-- C10 fails as stated for a seed of length `2^32`: `seed.len() as u32`
truncates to `0`, so no iteration takes the seeding branch and the first
iteration returns `0` instead of `seed[0] = 1`. -/
theorem C10_play_memory_game_counterexample :
    1 ≤ (1 :: List.replicate (2 ^ 32 - 1) 1 : List ℕ).length ∧
    Day15.play_memory_game (1 :: List.replicate (2 ^ 32 - 1) 1) 1 ≠
      (1 :: List.replicate (2 ^ 32 - 1) 1 : List ℕ).getD 0 0 := by
  refine ⟨by rw [List.length_cons]; omega, ?_⟩
  have hlen : (1 :: List.replicate (2 ^ 32 - 1) (1 : ℕ)).length = 2 ^ 32 := by
    rw [List.length_cons, List.length_replicate]; omega
  unfold Day15.play_memory_game
  rw [hlen, Nat.mod_self, show List.range 1 = [0] from rfl, List.foldl_cons,
    List.foldl_nil, stepGame_seedMax_zero, List.getD_cons_zero]
  norm_num

namespace Day13

/-- Cancellation of a common positive factor in a strict inequality. -/
theorem mul_lt_right_iff {a b c : ℕ} (hc : 0 < c) : a * c < b * c ↔ a < b := by
  constructor
  · intro h
    by_contra hh
    push_neg at hh
    exact absurd (Nat.mul_le_mul_right c hh) (not_le.mpr h)
  · intro h
    have h2 : (a + 1) * c ≤ b * c := Nat.mul_le_mul_right c h
    have h3 : (a + 1) * c = a * c + c := by ring
    omega

/-- Wrapping subtraction is exact subtraction on in-range arguments. -/
theorem wsub_small {a b : ℕ} (hb : b ≤ a) (ha : a < 2 ^ 64) :
    wsub a b = a - b := by
  unfold wsub
  omega

/-- The wrapped and the exact `next_departure` agree when the next
multiple of `bus_id` after `timestamp` still fits in 64 bits. -/
theorem next_departure_eq_U (t b : ℕ) (hb : 0 < b) (h : t + b ≤ 2 ^ 64) :
    next_departure t b = next_departureU t b := by
  unfold next_departure next_departureU
  by_cases ht : t = 0
  · rw [if_pos ht, if_pos ht]
  · rw [if_neg ht, if_neg ht]
    have h1 := Nat.div_add_mod (t - 1) b
    have hc : (t - 1) / b * b = b * ((t - 1) / b) := Nat.mul_comm _ _
    have h2 : ((t - 1) / b + 1) * b = (t - 1) / b * b + b := by ring
    have h3 : (t - 1) % b < b := Nat.mod_lt _ hb
    rw [h2]
    unfold wsub
    omega

/-- Along a successful run of the exact loop, the starting position is
bounded by the break position `r.2 + offA`. -/
theorem crtLoopU_pos_le (offA pA offB pB : ℕ) :
    ∀ fuel position first r,
      crtLoopU offA pA offB pB fuel position first = some r →
      position ≤ r.2 + offA := by
  intro fuel
  induction fuel with
  | zero =>
    intro position first r h
    exact absurd h (by simp [crtLoopU])
  | succ fuel ih =>
    intro position first r h
    simp only [crtLoopU] at h
    by_cases h1 : position + pA < offA
    · rw [if_pos h1] at h
      have := ih _ _ _ h
      omega
    · rw [if_neg h1] at h
      by_cases h2 : next_departureU (position + pA - offA) pB = offB % pB
      · rw [if_pos h2] at h
        by_cases h3 : first = 0
        · rw [if_pos h3] at h
          have := ih _ _ _ h
          omega
        · rw [if_neg h3] at h
          obtain rfl := Option.some.inj h
          dsimp only
          omega
      · rw [if_neg h2] at h
        have := ih _ _ _ h
        omega

/-- The wrapped loop agrees with the exact loop on any successful run
whose break position (which bounds every position of the run) stays far
enough below `2 ^ 64`. -/
theorem crtLoop_eq_U (offA pA offB pB : ℕ) (hpB : 0 < pB) :
    ∀ fuel position first r,
      crtLoopU offA pA offB pB fuel position first = some r →
      r.2 + offA + pB ≤ 2 ^ 64 →
      crtLoop offA pA offB pB fuel position first = some r := by
  intro fuel
  induction fuel with
  | zero =>
    intro position first r h _
    exact absurd h (by simp [crtLoopU])
  | succ fuel ih =>
    intro position first r h hbnd
    simp only [crtLoopU] at h
    simp only [crtLoop]
    have hple : position + pA ≤ r.2 + offA := by
      by_cases h1 : position + pA < offA
      · rw [if_pos h1] at h
        have := crtLoopU_pos_le offA pA offB pB _ _ _ _ h
        omega
      · rw [if_neg h1] at h
        by_cases h2 : next_departureU (position + pA - offA) pB = offB % pB
        · rw [if_pos h2] at h
          by_cases h3 : first = 0
          · rw [if_pos h3] at h
            have := crtLoopU_pos_le offA pA offB pB _ _ _ _ h
            omega
          · rw [if_neg h3] at h
            obtain rfl := Option.some.inj h
            dsimp only
            omega
        · rw [if_neg h2] at h
          have := crtLoopU_pos_le offA pA offB pB _ _ _ _ h
          omega
    have hmod : (position + pA) % 2 ^ 64 = position + pA :=
      Nat.mod_eq_of_lt (by omega)
    rw [hmod]
    have hnd : next_departure (position + pA - offA) pB =
        next_departureU (position + pA - offA) pB :=
      next_departure_eq_U _ _ hpB (by omega)
    rw [hnd]
    by_cases h1 : position + pA < offA
    · rw [if_pos h1] at h ⊢
      exact ih _ _ _ h hbnd
    · rw [if_neg h1] at h ⊢
      by_cases h2 : next_departureU (position + pA - offA) pB = offB % pB
      · rw [if_pos h2] at h ⊢
        by_cases h3 : first = 0
        · rw [if_pos h3] at h ⊢
          exact ih _ _ _ h hbnd
        · rw [if_neg h3] at h ⊢
          exact h
      · rw [if_neg h2] at h ⊢
        exact ih _ _ _ h hbnd

/-- Behaviour of the day-13 search loop.  Suppose the conjunction of the
two congruences tested by the loop holds exactly on the residue class
`r mod L` (`hchar`), with `pA ∣ L`.  Then, from a loop state whose
`position` is `k * pA` and whose `first_timestamp` is either still unset
(and no positive solution has been passed) or equal to the least positive
solution `t1`, the loop returns `(t1, t1 + L)` given enough fuel. -/
theorem crtLoopU_run (offA pA offB pB L r : ℕ) (hpA : 0 < pA) (hpB : 0 < pB)
    (hL : 0 < L) (hdvd : pA ∣ L) (hr : r < L)
    (hchar : ∀ b : ℕ, ((b + offA) % pA = 0 ∧ (b + offB) % pB = 0) ↔ b % L = r)
    (t1 : ℕ) (ht1 : t1 = if r = 0 then L else r) :
    ∀ fuel k first,
      (t1 + L + offA) / pA ≤ k + fuel →
      ((first = 0 ∧ ∀ b, 0 < b → b % L = r → k * pA < b + offA) ∨
        (first = t1 ∧ t1 + offA ≤ k * pA ∧ k * pA < t1 + L + offA)) →
      crtLoopU offA pA offB pB fuel (k * pA) first = some (t1, t1 + L) := by
  have ht1pos : 0 < t1 := by
    rw [ht1]; split <;> omega
  have ht1mod : t1 % L = r := by
    rw [ht1]; split
    · simp_all [Nat.mod_self]
    · exact Nat.mod_eq_of_lt hr
  have ht1min : ∀ b, 0 < b → b % L = r → t1 ≤ b := by
    intro b hb hbr
    rw [ht1]; split
    · rename_i h0
      rw [h0] at hbr
      have : L ∣ b := Nat.dvd_of_mod_eq_zero hbr
      exact Nat.le_of_dvd hb this
    · calc _ = b % L := hbr.symm
      _ ≤ b := Nat.mod_le b L
  have hstep : ∀ b, t1 < b → b % L = r → t1 + L ≤ b := by
    intro b hb hbr
    have hmeq : t1 ≡ b [MOD L] := by
      unfold Nat.ModEq; rw [ht1mod, hbr]
    have hdvd2 : L ∣ b - t1 := (Nat.modEq_iff_dvd' hb.le).mp hmeq
    have : L ≤ b - t1 := Nat.le_of_dvd (by omega) hdvd2
    omega
  have ht2mod : (t1 + L) % L = r := by
    rw [Nat.add_mod_right, ht1mod]
  have hpAL : pA ≤ L := Nat.le_of_dvd hL hdvd
  have hdvdt2 : pA ∣ t1 + L + offA := by
    have h2 : ((t1 + L) + offA) % pA = 0 := ((hchar (t1 + L)).mpr ht2mod).1
    exact Nat.dvd_of_mod_eq_zero h2
  have hk2 : ((t1 + L + offA) / pA) * pA = t1 + L + offA :=
    Nat.div_mul_cancel hdvdt2
  intro fuel k first
  induction fuel generalizing k first with
  | zero =>
    intro hfuel hinv
    exfalso
    have hklt : k * pA < t1 + L + offA := by
      rcases hinv with ⟨_, hb⟩ | ⟨_, _, h2⟩
      · exact hb (t1 + L) (by omega) ht2mod
      · exact h2
    rw [← hk2] at hklt
    have : k < (t1 + L + offA) / pA := (mul_lt_right_iff hpA).mp hklt
    omega
  | succ fuel ih =>
    intro hfuel hinv
    simp only [crtLoopU]
    have hsucc : k * pA + pA = (k + 1) * pA := by ring
    rw [hsucc]
    by_cases hlt : (k + 1) * pA < offA
    · rw [if_pos hlt]
      rcases hinv with ⟨h0, hb⟩ | ⟨hf, h1, h2⟩
      · exact ih (k + 1) first (by omega)
          (Or.inl ⟨h0, fun b hbpos hbr =>
            lt_of_lt_of_le hlt (Nat.le_add_left offA b)⟩)
      · exfalso
        have harg : (k + 1) * pA = k * pA + pA := by ring
        omega
    · rw [if_neg hlt]
      push_neg at hlt
      set base := (k + 1) * pA - offA with hbasedef
      have hbase : base + offA = (k + 1) * pA := by omega
      have hA : (base + offA) % pA = 0 := by
        rw [hbase]; exact Nat.mul_mod_left _ _
      have hcond : (next_departureU base pB = offB % pB) ↔ base % L = r := by
        rw [← hchar base]
        constructor
        · intro h
          exact ⟨hA, (nd_iff base offB hpB).mpr h.symm⟩
        · rintro ⟨-, h⟩
          exact ((nd_iff base offB hpB).mp h).symm
      by_cases hc : next_departureU base pB = offB % pB
      · rw [if_pos hc]
        have hbaser : base % L = r := hcond.mp hc
        rcases hinv with ⟨h0, hb⟩ | ⟨hf, h1, h2⟩
        · rw [h0, if_pos rfl]
          by_cases hb0 : base = 0
          · apply ih (k + 1) base (by omega)
            left
            refine ⟨hb0, ?_⟩
            intro b hbpos hbr
            have hoffA : (k + 1) * pA = offA := by omega
            have hbmin := ht1min b hbpos hbr
            omega
          · apply ih (k + 1) base (by omega)
            right
            have hbpos : 0 < base := Nat.pos_of_ne_zero hb0
            have hmin : t1 ≤ base := ht1min base hbpos hbaser
            have hub : base < t1 + pA := by
              have hkb := hb t1 ht1pos ht1mod
              have harg : (k + 1) * pA = k * pA + pA := by ring
              omega
            have hbt1 : base = t1 := by
              by_cases heq : base = t1
              · exact heq
              · exfalso
                have hgt : t1 < base := lt_of_le_of_ne hmin (Ne.symm heq)
                have := hstep base hgt hbaser
                omega
            exact ⟨hbt1, by omega, by omega⟩
        · rw [hf, if_neg (by omega : ¬ t1 = 0)]
          have hgt : t1 < base := by
            have harg : (k + 1) * pA = k * pA + pA := by ring
            omega
          have hge : t1 + L ≤ base := hstep base hgt hbaser
          have hle : base ≤ t1 + L := by
            rw [← hk2] at h2
            have hkk2 : k < (t1 + L + offA) / pA := (mul_lt_right_iff hpA).mp h2
            have hmul : (k + 1) * pA ≤ ((t1 + L + offA) / pA) * pA :=
              Nat.mul_le_mul_right pA (by omega)
            rw [hk2] at hmul
            omega
          have hbt2 : base = t1 + L := le_antisymm hle hge
          rw [hbt2]
      · rw [if_neg hc]
        have hbaser : ¬ base % L = r := fun h => hc (hcond.mpr h)
        rcases hinv with ⟨h0, hb⟩ | ⟨hf, h1, h2⟩
        · apply ih (k + 1) first (by omega)
          left
          refine ⟨h0, ?_⟩
          intro b hbpos hbr
          by_contra hcon
          push_neg at hcon
          have hkb := hb b hbpos hbr
          have hAb : (b + offA) % pA = 0 := ((hchar b).mpr hbr).1
          obtain ⟨m, hm⟩ := Nat.dvd_of_mod_eq_zero hAb
          have hmk : m ≤ k + 1 := by
            by_contra hmk
            push_neg at hmk
            have hx := (mul_lt_right_iff hpA).mpr hmk
            rw [mul_comm m pA, ← hm] at hx
            omega
          have hmk2 : k < m := by
            have hx : k * pA < m * pA := by
              rw [mul_comm m pA, ← hm]; exact hkb
            exact (mul_lt_right_iff hpA).mp hx
          have hm3 : m = k + 1 := by omega
          have hbeq : b = base := by
            have hx : b + offA = (k + 1) * pA := by
              rw [hm, hm3]; ring
            omega
          exact hbaser (hbeq ▸ hbr)
        · apply ih (k + 1) first (by omega)
          right
          refine ⟨hf, by
            have harg : (k + 1) * pA = k * pA + pA := by ring
            omega, ?_⟩
          have hle : (k + 1) * pA ≤ t1 + L + offA := by
            rw [← hk2] at h2
            have hkk2 : k < (t1 + L + offA) / pA := (mul_lt_right_iff hpA).mp h2
            have hmul : (k + 1) * pA ≤ ((t1 + L + offA) / pA) * pA :=
              Nat.mul_le_mul_right pA (by omega)
            rw [hk2] at hmul
            exact hmul
          by_cases heq : (k + 1) * pA = t1 + L + offA
          · exfalso
            have hx : base = t1 + L := by omega
            exact hbaser (hx ▸ ht2mod)
          · omega

/-- Chinese-remainder characterisation of the pair of congruences tested by
the day-13 loop: for coprime periods, their conjunction holds exactly on one
residue class modulo the product. -/
theorem crt_char (offA pA offB pB : ℕ) (hpA : 0 < pA) (hpB : 0 < pB)
    (hcop : Nat.Coprime pA pB) :
    ∃ r, r < pA * pB ∧
      ∀ b : ℕ, ((b + offA) % pA = 0 ∧ (b + offB) % pB = 0) ↔
        b % (pA * pB) = r := by
  have hL : 0 < pA * pB := Nat.mul_pos hpA hpB
  obtain ⟨c, hcA, hcB⟩ :=
    Nat.chineseRemainder hcop (next_departureU offA pA) (next_departureU offB pB)
  refine ⟨c % (pA * pB), Nat.mod_lt _ hL, ?_⟩
  intro b
  have hA : (b + offA) % pA = 0 ↔ b % pA = next_departureU offA pA := by
    rw [Nat.add_comm b offA]; exact nd_iff offA b hpA
  have hB : (b + offB) % pB = 0 ↔ b % pB = next_departureU offB pB := by
    rw [Nat.add_comm b offB]; exact nd_iff offB b hpB
  unfold Nat.ModEq at hcA hcB
  rw [Nat.mod_eq_of_lt (nd_lt offA hpA)] at hcA
  rw [Nat.mod_eq_of_lt (nd_lt offB hpB)] at hcB
  have h1 : (b % pA = next_departureU offA pA) ↔ b ≡ c [MOD pA] := by
    unfold Nat.ModEq
    rw [hcA]
  have h2 : (b % pB = next_departureU offB pB) ↔ b ≡ c [MOD pB] := by
    unfold Nat.ModEq
    rw [hcB]
  rw [hA, hB, h1, h2, Nat.modEq_and_modEq_iff_modEq_mul hcop]
  exact Iff.rfl

/-- Correctness of one run of the day-13 loop from its initial state: for
coprime periods it finds the first two positive simultaneous solutions,
which are `L = pA * pB` apart, and the derived `next_departureU` offset
describes exactly the simultaneous solutions. -/
theorem mergeCore (offA pA offB pB : ℕ) (hpA : 0 < pA) (hpB : 0 < pB)
    (hcop : Nat.Coprime pA pB) :
    ∃ F t1v, t1v ≤ pA * pB ∧
      (∀ fuel, F ≤ fuel →
        crtLoopU offA pA offB pB fuel 0 0 = some (t1v, t1v + pA * pB)) ∧
      (∀ u : ℕ,
        (u + next_departureU (t1v + pA * pB) (pA * pB)) % (pA * pB) = 0 ↔
          ((u + offA) % pA = 0 ∧ (u + offB) % pB = 0)) := by
  obtain ⟨r, hr, hchar⟩ := crt_char offA pA offB pB hpA hpB hcop
  have hL : 0 < pA * pB := Nat.mul_pos hpA hpB
  set t1 := if r = 0 then pA * pB else r with ht1
  have ht1mod : t1 % (pA * pB) = r := by
    rw [ht1]; split
    · simp_all [Nat.mod_self]
    · exact Nat.mod_eq_of_lt hr
  refine ⟨(t1 + pA * pB + offA) / pA, t1, ?_, ?_, ?_⟩
  · rw [ht1]; split <;> omega
  · intro fuel hF
    have h0 := crtLoopU_run offA pA offB pB (pA * pB) r hpA hpB hL
      (Dvd.intro pB rfl) hr hchar t1 ht1 fuel 0 0 (by omega) ?_
    · rw [Nat.zero_mul] at h0
      exact h0
    · left
      refine ⟨rfl, ?_⟩
      intro b hb _
      rw [Nat.zero_mul]
      omega
  · intro u
    rw [nd_mem_iff (t1 + pA * pB) u hL, Nat.add_mod_right, ht1mod]
    exact (hchar u).symm

/-- Correctness of `mergePair` for coprime positive periods, under a bound
keeping the whole merge inside 64 bits: it returns the pair
`(new_offset, new_period)` with `new_period = acc.2 * next.2` whose
arithmetic progression is exactly the set of timestamps satisfying both
input constraints. -/
theorem mergePair_spec (acc next : ℕ × ℕ) (ha : 0 < acc.2) (hn : 0 < next.2)
    (hcop : Nat.Coprime acc.2 next.2)
    (hb3 : 3 * (acc.2 * next.2) + acc.1 + next.1 + acc.2 + next.2 ≤ 2 ^ 64) :
    ∃ F newOff, newOff < acc.2 * next.2 ∧
      (∀ u : ℕ, (u + newOff) % (acc.2 * next.2) = 0 ↔
        ((u + acc.1) % acc.2 = 0 ∧ (u + next.1) % next.2 = 0)) ∧
      ∀ fuel, F ≤ fuel →
        mergePair acc next fuel = some (newOff, acc.2 * next.2) := by
  by_cases hsw : acc.2 < next.2
  · obtain ⟨F, t1v, ht1le, hloop, hiff⟩ :=
      mergeCore next.1 next.2 acc.1 acc.2 hn ha hcop.symm
    have hLL : next.2 * acc.2 = acc.2 * next.2 := Nat.mul_comm _ _
    have hL : 0 < next.2 * acc.2 := Nat.mul_pos hn ha
    refine ⟨F, next_departureU (t1v + next.2 * acc.2) (next.2 * acc.2),
      ?_, ?_, ?_⟩
    · rw [← hLL]
      exact nd_lt _ (Nat.mul_pos hn ha)
    · intro u
      rw [← hLL]
      exact (hiff u).trans and_comm
    · intro fuel hF
      have hW := crtLoop_eq_U next.1 next.2 acc.1 acc.2 ha fuel 0 0 _
        (hloop fuel hF) (by dsimp only; omega)
      unfold mergePair
      rw [if_pos hsw]
      simp only
      rw [hW]
      show some (next_departure (t1v + next.2 * acc.2)
          (wsub (t1v + next.2 * acc.2) t1v),
        wsub (t1v + next.2 * acc.2) t1v) = _
      have hlt2 : t1v + next.2 * acc.2 < 2 ^ 64 := by omega
      have hw1 : wsub (t1v + next.2 * acc.2) t1v = next.2 * acc.2 := by
        rw [wsub_small (Nat.le_add_right t1v _) hlt2]
        exact Nat.add_sub_cancel_left _ _
      rw [hw1, next_departure_eq_U _ _ hL (by omega), hLL]
  · obtain ⟨F, t1v, ht1le, hloop, hiff⟩ :=
      mergeCore acc.1 acc.2 next.1 next.2 ha hn hcop
    have hL : 0 < acc.2 * next.2 := Nat.mul_pos ha hn
    refine ⟨F, next_departureU (t1v + acc.2 * next.2) (acc.2 * next.2),
      ?_, ?_, ?_⟩
    · exact nd_lt _ (Nat.mul_pos ha hn)
    · exact hiff
    · intro fuel hF
      have hW := crtLoop_eq_U acc.1 acc.2 next.1 next.2 hn fuel 0 0 _
        (hloop fuel hF) (by dsimp only; omega)
      unfold mergePair
      rw [if_neg hsw]
      simp only
      rw [hW]
      show some (next_departure (t1v + acc.2 * next.2)
          (wsub (t1v + acc.2 * next.2) t1v),
        wsub (t1v + acc.2 * next.2) t1v) = _
      have hlt2 : t1v + acc.2 * next.2 < 2 ^ 64 := by omega
      have hw1 : wsub (t1v + acc.2 * next.2) t1v = acc.2 * next.2 := by
        rw [wsub_small (Nat.le_add_right t1v _) hlt2]
        exact Nat.add_sub_cancel_left _ _
      rw [hw1, next_departure_eq_U _ _ hL (by omega)]

/-- Correctness of `find_sequential_departure_iter`: starting from an
accumulator constraint and a next constraint with positive, pairwise
coprime periods, and a bound keeping every merge inside 64 bits, it
yields the least positive timestamp satisfying the accumulator, the next
constraint and every remaining constraint. -/
theorem iter_spec :
    ∀ (remaining : List (ℕ × ℕ)) (acc next : ℕ × ℕ),
      0 < acc.2 → 0 < next.2 → Nat.Coprime acc.2 next.2 →
      acc.1 ≤ acc.2 →
      6 * (acc.2 * next.2 * (remaining.map Prod.snd).prod) + next.1 +
          (remaining.map Prod.fst).sum ≤ 2 ^ 64 →
      (∀ p ∈ remaining,
        0 < p.2 ∧ Nat.Coprime acc.2 p.2 ∧ Nat.Coprime next.2 p.2) →
      remaining.Pairwise (fun a b => Nat.Coprime a.2 b.2) →
      ∃ F t, 0 < t ∧
        (t + acc.1) % acc.2 = 0 ∧ (t + next.1) % next.2 = 0 ∧
        (∀ p ∈ remaining, (t + p.1) % p.2 = 0) ∧
        (∀ u, 0 < u → (u + acc.1) % acc.2 = 0 → (u + next.1) % next.2 = 0 →
          (∀ p ∈ remaining, (u + p.1) % p.2 = 0) → t ≤ u) ∧
        ∀ fuel, F ≤ fuel →
          find_sequential_departure_iter fuel acc next remaining = some t := by
  intro remaining
  induction remaining with
  | nil =>
    intro acc next ha hn hcop hoff hbnd _ _
    simp only [List.map_nil, List.prod_nil, List.sum_nil, mul_one,
      add_zero] at hbnd
    have hle1 : acc.2 ≤ acc.2 * next.2 := Nat.le_mul_of_pos_right _ hn
    have hle2 : next.2 ≤ acc.2 * next.2 := Nat.le_mul_of_pos_left _ ha
    obtain ⟨F, newOff, hlt, hiff, heq⟩ :=
      mergePair_spec acc next ha hn hcop (by omega)
    have hL : 0 < acc.2 * next.2 := Nat.mul_pos ha hn
    have ht : ((acc.2 * next.2 - newOff) + newOff) % (acc.2 * next.2) = 0 := by
      rw [Nat.sub_add_cancel hlt.le, Nat.mod_self]
    refine ⟨F, acc.2 * next.2 - newOff, by omega, ((hiff _).mp ht).1,
      ((hiff _).mp ht).2, by simp, ?_, ?_⟩
    · intro u hu hsa hsn _
      have hmem : (u + newOff) % (acc.2 * next.2) = 0 := (hiff u).mpr ⟨hsa, hsn⟩
      have hcong : u ≡ acc.2 * next.2 - newOff [MOD acc.2 * next.2] := by
        have : u + newOff ≡ (acc.2 * next.2 - newOff) + newOff
            [MOD acc.2 * next.2] := by
          unfold Nat.ModEq
          rw [hmem, ht]
        exact this.add_right_cancel' _
      by_cases h0 : newOff = 0
      · have hdvd : acc.2 * next.2 ∣ u := by
          apply Nat.dvd_of_mod_eq_zero
          have := hmem
          rw [h0, Nat.add_zero] at this
          exact this
        have := Nat.le_of_dvd hu hdvd
        omega
      · have : u % (acc.2 * next.2) = acc.2 * next.2 - newOff := by
          unfold Nat.ModEq at hcong
          rw [hcong, Nat.mod_eq_of_lt (by omega)]
        have := Nat.mod_le u (acc.2 * next.2)
        omega
    · intro fuel hF
      simp only [find_sequential_departure_iter]
      rw [heq fuel hF]
      dsimp only
      rw [wsub_small hlt.le (by omega)]
  | cons n rest ih =>
    intro acc next ha hn hcop hoff hbnd hall hpw
    simp only [List.map_cons, List.prod_cons, List.sum_cons] at hbnd
    have hn2 : 0 < n.2 := (hall n (by simp)).1
    have hrp : 0 < (rest.map Prod.snd).prod := by
      apply List.prod_pos
      intro x hx
      obtain ⟨p, hp, rfl⟩ := List.mem_map.mp hx
      exact (hall p (by simp [hp])).1
    have hle1 : acc.2 ≤ acc.2 * next.2 := Nat.le_mul_of_pos_right _ hn
    have hle2 : next.2 ≤ acc.2 * next.2 := Nat.le_mul_of_pos_left _ ha
    have hle3 : acc.2 * next.2 ≤
        acc.2 * next.2 * (n.2 * (rest.map Prod.snd).prod) :=
      Nat.le_mul_of_pos_right _ (Nat.mul_pos hn2 hrp)
    obtain ⟨F1, newOff, hlt, hiff, heq⟩ :=
      mergePair_spec acc next ha hn hcop (by omega)
    have hL : 0 < acc.2 * next.2 := Nat.mul_pos ha hn
    have hcop' : Nat.Coprime (acc.2 * next.2) n.2 :=
      Nat.Coprime.mul (hall n (by simp)).2.1 (hall n (by simp)).2.2
    have hall' : ∀ p ∈ rest,
        0 < p.2 ∧ Nat.Coprime (acc.2 * next.2) p.2 ∧ Nat.Coprime n.2 p.2 := by
      intro p hp
      have h1 := hall p (by simp [hp])
      have h2 : Nat.Coprime n.2 p.2 := (List.pairwise_cons.mp hpw).1 p hp
      exact ⟨h1.1, Nat.Coprime.mul h1.2.1 h1.2.2, h2⟩
    have hassoc : acc.2 * next.2 * n.2 * (rest.map Prod.snd).prod =
        acc.2 * next.2 * (n.2 * (rest.map Prod.snd).prod) := by ring
    obtain ⟨F2, t, htpos, hsa', hsn', hrest, hmin, hiter⟩ :=
      ih (newOff, acc.2 * next.2) n hL hn2 hcop' hlt.le
        (by
          show 6 * (acc.2 * next.2 * n.2 * (rest.map Prod.snd).prod) +
            n.1 + (rest.map Prod.fst).sum ≤ 2 ^ 64
          omega)
        hall' (List.pairwise_cons.mp hpw).2
    refine ⟨max F1 F2, t, htpos, ((hiff t).mp hsa').1, ((hiff t).mp hsa').2,
      ?_, ?_, ?_⟩
    · intro p hp
      rcases List.mem_cons.mp hp with hp | hp
      · rw [hp]; exact hsn'
      · exact hrest p hp
    · intro u hu hsa hsn hall2
      refine hmin u hu ((hiff u).mpr ⟨hsa, hsn⟩) (hall2 n (by simp)) ?_
      intro p hp
      exact hall2 p (by simp [hp])
    · intro fuel hF
      rw [find_sequential_departure_iter, heq fuel (le_trans (le_max_left _ _) hF)]
      show find_sequential_departure_iter fuel (newOff, acc.2 * next.2) n rest
        = some t
      exact hiter fuel (le_trans (le_max_right _ _) hF)

/-- With periods `2 ^ 63` and `2 ^ 63 - 1` the wrapped loop cycles through
positions `2 ^ 63` and `0` forever (the position arithmetic wraps at
`2 ^ 64` before any true confluence is reached), so it never breaks. -/
theorem crtLoop_cycle :
    ∀ fuel position first, position = 0 ∨ position = 2 ^ 63 →
      crtLoop 0 (2 ^ 63) 1 (2 ^ 63 - 1) fuel position first = none := by
  intro fuel
  induction fuel with
  | zero =>
    intro position first h
    rfl
  | succ fuel ih =>
    intro position first h
    simp only [crtLoop]
    rcases h with rfl | rfl
    · split
      · rename_i hc1
        exact absurd hc1 (by decide)
      · split
        · rename_i hc2
          exact absurd hc2 (by decide)
        · exact ih _ _ (Or.inr (by norm_num))
    · split
      · rename_i hc1
        exact absurd hc1 (by decide)
      · split
        · rename_i hc2
          exact absurd hc2 (by decide)
        · exact ih _ _ (Or.inl (by norm_num))

/-- The first merge of the counterexample run: from its reachable states
the wrapped loop over periods `2 ^ 63` and `1` can only break with
`(first, second) = (2 ^ 63, 0)` — the second confluence timestamp has
already wrapped to `0`. -/
theorem loop1_char :
    ∀ fuel position first,
      (position = 0 ∧ first = 0) ∨ (position = 2 ^ 63 ∧ first = 2 ^ 63) →
      ∀ r, crtLoop 0 (2 ^ 63) 0 1 fuel position first = some r →
      r = (2 ^ 63, 0) := by
  intro fuel
  induction fuel with
  | zero =>
    intro position first _ r h
    exact absurd h (by simp [crtLoop])
  | succ fuel ih =>
    intro position first h r hr
    simp only [crtLoop] at hr
    rcases h with ⟨rfl, rfl⟩ | ⟨rfl, rfl⟩
    · rw [if_neg (by decide), if_pos (by decide), if_pos rfl] at hr
      exact ih _ _ (Or.inr ⟨by norm_num, by norm_num⟩) r hr
    · rw [if_neg (by decide), if_pos (by decide), if_neg (by decide)] at hr
      have hpair := Option.some.inj hr
      rw [← hpair]
      decide

/-- Characterisation of the first merge of the counterexample run:
whenever it succeeds at all, it returns the constraint `(0, 2 ^ 63)`. -/
theorem merge1_char (fuel : ℕ) (m : ℕ × ℕ)
    (h : mergePair (0, 1) (0, 2 ^ 63) fuel = some m) : m = (0, 2 ^ 63) := by
  unfold mergePair at h
  rw [if_pos (by decide)] at h
  dsimp only at h
  cases hcl : crtLoop 0 (2 ^ 63) 0 1 fuel 0 0 with
  | none =>
    rw [hcl] at h
    exact absurd h (by simp)
  | some r =>
    rw [hcl] at h
    obtain rfl : r = (2 ^ 63, 0) := loop1_char fuel 0 0 (Or.inl ⟨rfl, rfl⟩) r hcl
    have hm2 : m = (next_departure 0 (wsub 0 (2 ^ 63)), wsub 0 (2 ^ 63)) :=
      (Option.some.inj h).symm
    rw [hm2]
    decide

end Day13

/-- C4 (amended): for every non-empty list of `(offset, bus_id)` pairs
with positive, pairwise coprime bus ids that is small enough for the
search to stay inside 64-bit `usize` arithmetic
(`6 * product of bus ids + sum of offsets ≤ 2 ^ 64`),
`find_sequential_departure` terminates (for sufficient fuel, modelling
the unbounded Rust loop) and returns the smallest positive timestamp `t`
such that `bus_id` divides `t + offset` for every pair in the list.
Without the size bound the claim fails: the loop's position arithmetic
wraps at `2 ^ 64` (`C4_crt_overflow_counterexample`). -/
theorem C4_find_sequential_departure (bus : List (ℕ × ℕ)) (hne : bus ≠ [])
    (hpos : ∀ p ∈ bus, 0 < p.2)
    (hcop : bus.Pairwise (fun a b => Nat.Coprime a.2 b.2))
    (hbound : 6 * (bus.map Prod.snd).prod + (bus.map Prod.fst).sum ≤ 2 ^ 64) :
    ∃ fuel t, Day13.find_sequential_departure fuel bus = some t ∧ 0 < t ∧
      (∀ p ∈ bus, (t + p.1) % p.2 = 0) ∧
      ∀ u, 0 < u → (∀ p ∈ bus, (u + p.1) % p.2 = 0) → t ≤ u := by
  match bus, hne with
  | first :: rest, _ =>
    obtain ⟨F, t, htpos, hs0, hsf, hrest, hmin, hiter⟩ :=
      Day13.iter_spec rest (0, 1) first (by norm_num)
        (hpos first (by simp)) (Nat.coprime_one_left _)
        (by norm_num)
        (by
          simp only [List.map_cons, List.prod_cons, List.sum_cons] at hbound
          show 6 * (1 * first.2 * (rest.map Prod.snd).prod) + first.1 +
            (rest.map Prod.fst).sum ≤ 2 ^ 64
          have h1 : 1 * first.2 * (rest.map Prod.snd).prod =
              first.2 * (rest.map Prod.snd).prod := by ring
          omega)
        (fun p hp => ⟨hpos p (by simp [hp]), Nat.coprime_one_left _,
          (List.pairwise_cons.mp hcop).1 p hp⟩)
        (List.pairwise_cons.mp hcop).2
    refine ⟨F, t, ?_, htpos, ?_, ?_⟩
    · show Day13.find_sequential_departure_iter F (0, 1) first rest = some t
      exact hiter F le_rfl
    · intro p hp
      rcases List.mem_cons.mp hp with hp | hp
      · rw [hp]; exact hsf
      · exact hrest p hp
    · intro u hu hall
      refine hmin u hu (by simp [Nat.mod_one]) (hall first (by simp)) ?_
      intro p hp
      exact hall p (by simp [hp])

/-- Witness for `C4_find_sequential_departure` at the bus list
`[(0, 2), (1, 3)]` (answer: timestamp 2). -/
theorem C4_find_sequential_departure_witness :
    (([(0, 2), (1, 3)] : List (ℕ × ℕ)) ≠ [] ∧
      (∀ p ∈ ([(0, 2), (1, 3)] : List (ℕ × ℕ)), 0 < p.2) ∧
      ([(0, 2), (1, 3)] : List (ℕ × ℕ)).Pairwise
        (fun a b => Nat.Coprime a.2 b.2) ∧
      6 * (([(0, 2), (1, 3)] : List (ℕ × ℕ)).map Prod.snd).prod +
        (([(0, 2), (1, 3)] : List (ℕ × ℕ)).map Prod.fst).sum ≤ 2 ^ 64) ∧
    (∃ fuel t,
      Day13.find_sequential_departure fuel [(0, 2), (1, 3)] = some t ∧
      0 < t ∧ (∀ p ∈ ([(0, 2), (1, 3)] : List (ℕ × ℕ)), (t + p.1) % p.2 = 0) ∧
      ∀ u, 0 < u →
        (∀ p ∈ ([(0, 2), (1, 3)] : List (ℕ × ℕ)), (u + p.1) % p.2 = 0) →
        t ≤ u) :=
  ⟨⟨by decide, by decide, by decide, by decide⟩,
    C4_find_sequential_departure [(0, 2), (1, 3)] (by decide) (by decide)
      (by decide) (by decide)⟩

/-- C4 fails as stated: the bus list `[(0, 2 ^ 63), (1, 2 ^ 63 - 1)]` is
non-empty with positive, pairwise coprime (consecutive) bus ids, so the
original claim promises the least simultaneous timestamp (about
`2 ^ 126`); but the loop's `usize` position arithmetic wraps at `2 ^ 64`
and cycles without ever finding a confluence, so
`find_sequential_departure` never returns, whatever the fuel. -/
theorem C4_crt_overflow_counterexample :
    (([(0, 2 ^ 63), (1, 2 ^ 63 - 1)] : List (ℕ × ℕ)) ≠ [] ∧
      (∀ p ∈ ([(0, 2 ^ 63), (1, 2 ^ 63 - 1)] : List (ℕ × ℕ)), 0 < p.2) ∧
      ([(0, 2 ^ 63), (1, 2 ^ 63 - 1)] : List (ℕ × ℕ)).Pairwise
        (fun a b => Nat.Coprime a.2 b.2)) ∧
    ∀ fuel,
      Day13.find_sequential_departure fuel [(0, 2 ^ 63), (1, 2 ^ 63 - 1)] =
        none := by
  refine ⟨⟨by decide, by decide, ?_⟩, ?_⟩
  · refine List.Pairwise.cons ?_ (by simp)
    intro b hb
    have hb' : b = (1, 2 ^ 63 - 1) := by simpa using hb
    subst hb'
    show Nat.Coprime (2 ^ 63) (2 ^ 63 - 1)
    rw [show (2 : ℕ) ^ 63 = (2 ^ 63 - 1) + 1 from by norm_num]
    exact Nat.coprime_self_add_left.mpr (Nat.coprime_one_left _)
  · intro fuel
    show Day13.find_sequential_departure_iter fuel (0, 1) (0, 2 ^ 63)
      [(1, 2 ^ 63 - 1)] = none
    rw [Day13.find_sequential_departure_iter]
    cases hm : Day13.mergePair (0, 1) (0, 2 ^ 63) fuel with
    | none => rfl
    | some m =>
      obtain rfl := Day13.merge1_char fuel m hm
      show Day13.find_sequential_departure_iter fuel (0, 2 ^ 63)
        (1, 2 ^ 63 - 1) [] = none
      rw [Day13.find_sequential_departure_iter]
      have hcl : Day13.crtLoop 0 (2 ^ 63) 1 (2 ^ 63 - 1) fuel 0 0 = none :=
        Day13.crtLoop_cycle fuel 0 0 (Or.inl rfl)
      unfold Day13.mergePair
      rw [if_neg (by decide)]
      dsimp only
      rw [hcl]

namespace Day17

/-- Membership in the embedded `a..=b` range. -/
theorem mem_rangeInc {a lo hi : ℤ} : a ∈ rangeInc lo hi ↔ lo ≤ a ∧ a ≤ hi := by
  unfold rangeInc
  simp only [List.mem_map, List.mem_range]
  constructor
  · rintro ⟨i, hi2, rfl⟩
    omega
  · intro h
    exact ⟨(a - lo).toNat, by omega, by omega⟩

/-- Membership in the 27-cell neighbourhood box. -/
theorem mem_box3 {c : ℤ × ℤ × ℤ} {x y z : ℤ} :
    c ∈ box3 x y z ↔
      x - 1 ≤ c.1 ∧ c.1 ≤ x + 1 ∧ y - 1 ≤ c.2.1 ∧ c.2.1 ≤ y + 1 ∧
        z - 1 ≤ c.2.2 ∧ c.2.2 ≤ z + 1 := by
  obtain ⟨cx, cy, cz⟩ := c
  simp only [box3, List.mem_flatMap, List.mem_map, mem_rangeInc]
  constructor
  · rintro ⟨z1, hz, y1, hy, x1, hx, heq⟩
    obtain ⟨rfl, rfl, rfl⟩ := Prod.mk.injEq .. ▸ heq
    simp_all
  · rintro ⟨h1, h2, h3, h4, h5, h6⟩
    exact ⟨cz, by omega, cy, by omega, cx, by omega, rfl⟩

/-- Membership in the iteration box of `iterate_grid_3d`. -/
theorem mem_iterBox3 {c : ℤ × ℤ × ℤ} {g : ThreeDGrid} :
    c ∈ iterBox3 g ↔
      g.x_min - 1 ≤ c.1 ∧ c.1 ≤ g.x_max + 1 ∧
        g.y_min - 1 ≤ c.2.1 ∧ c.2.1 ≤ g.y_max + 1 ∧
        g.z_min - 1 ≤ c.2.2 ∧ c.2.2 ≤ g.z_max + 1 := by
  obtain ⟨cx, cy, cz⟩ := c
  simp only [iterBox3, List.mem_flatMap, List.mem_map, mem_rangeInc]
  constructor
  · rintro ⟨z1, hz, y1, hy, x1, hx, heq⟩
    obtain ⟨rfl, rfl, rfl⟩ := Prod.mk.injEq .. ▸ heq
    simp_all
  · rintro ⟨h1, h2, h3, h4, h5, h6⟩
    exact ⟨cz, by omega, cy, by omega, cx, by omega, rfl⟩

/-- Cell-level semantics of `toggle_cell`: the toggled cell takes the new
value, every other cell is unchanged. -/
theorem toggle_active_iff (g : ThreeDGrid) (c p : ℤ × ℤ × ℤ) (b : Bool) :
    (g.toggle_cell c.1 c.2.1 c.2.2 b).is_cell_active p.1 p.2.1 p.2.2 ↔
      (if p = c then b = true else g.is_cell_active p.1 p.2.1 p.2.2) := by
  unfold ThreeDGrid.toggle_cell ThreeDGrid.is_cell_active
  show p ∈ (if b then insert c g.cells else g.cells.erase c) ↔
    (if p = c then b = true else p ∈ g.cells)
  cases b
  · by_cases h : p = c
    · subst h
      simp [Finset.mem_erase]
    · simp [h, Finset.mem_erase]
  · by_cases h : p = c
    · subst h
      simp [Finset.mem_insert]
    · simp [h, Finset.mem_insert]

/-- Semantics of the `iterate_grid_3d` write loop: after toggling every
cell of `L` to the value `rule` computed from the (unchanged) old grid, a
cell listed in `L` holds its rule value and any other cell its old value. -/
theorem foldl_toggle_active (rule : ℤ × ℤ × ℤ → Bool) :
    ∀ (L : List (ℤ × ℤ × ℤ)) (g : ThreeDGrid) (p : ℤ × ℤ × ℤ),
      ((L.foldl (fun ng c => ng.toggle_cell c.1 c.2.1 c.2.2 (rule c))
          g).is_cell_active p.1 p.2.1 p.2.2 ↔
        (if p ∈ L then rule p = true else g.is_cell_active p.1 p.2.1 p.2.2))
  | [], g, p => by simp
  | c :: L, g, p => by
    rw [List.foldl_cons, foldl_toggle_active rule L _ p]
    by_cases hL : p ∈ L
    · rw [if_pos hL, if_pos (List.mem_cons_of_mem c hL)]
    · rw [if_neg hL, toggle_active_iff]
      by_cases hc : p = c
      · rw [if_pos hc, if_pos (by rw [hc]; exact List.mem_cons_self c L)]
        rw [hc]
      · rw [if_neg hc, if_neg (by
          intro hm
          rcases List.mem_cons.mp hm with hm | hm
          · exact hc hm
          · exact hL hm)]

/-- Truth-value of the life rule as a proposition. -/
theorem lifeRule3_iff (g : ThreeDGrid) (c : ℤ × ℤ × ℤ) :
    lifeRule3 g c = true ↔
      ((g.is_cell_active c.1 c.2.1 c.2.2 ∧
          (g.count_adjacent c.1 c.2.1 c.2.2 = 2 ∨
            g.count_adjacent c.1 c.2.1 c.2.2 = 3)) ∨
        (¬g.is_cell_active c.1 c.2.1 c.2.2 ∧
          g.count_adjacent c.1 c.2.1 c.2.2 = 3)) := by
  unfold lifeRule3
  by_cases h : g.is_cell_active c.1 c.2.1 c.2.2 <;> simp [h]

/-- A cell strictly outside the bounds extended by one has no active
neighbours when all active cells lie within the bounds. -/
theorem count_adjacent_far (g : ThreeDGrid) (hin : InBounds3 g) (x y z : ℤ)
    (hout : x < g.x_min - 1 ∨ g.x_max + 1 < x ∨ y < g.y_min - 1 ∨
      g.y_max + 1 < y ∨ z < g.z_min - 1 ∨ g.z_max + 1 < z) :
    g.count_adjacent x y z = 0 := by
  unfold ThreeDGrid.count_adjacent
  rw [List.countP_eq_zero]
  intro c hc
  simp only [decide_eq_true_eq]
  rintro ⟨-, hact⟩
  have hbox := mem_box3.mp hc
  have hbounds := hin _ hact
  dsimp only at hbounds
  omega

end Day17

/-- C5: on a grid whose active cells lie within its recorded bounds,
`iterate_grid_3d` applies the B3/S23 life rule on the 26-neighbourhood to
every cell, and every cell outside the old bounds extended by one remains
inactive. -/
theorem C5_iterate_grid_3d (g : Day17.ThreeDGrid) (hin : Day17.InBounds3 g) :
    ∀ x y z : ℤ,
      ((Day17.iterate_grid_3d g).is_cell_active x y z ↔
        ((g.is_cell_active x y z ∧
            (g.count_adjacent x y z = 2 ∨ g.count_adjacent x y z = 3)) ∨
          (¬g.is_cell_active x y z ∧ g.count_adjacent x y z = 3))) ∧
      ((x < g.x_min - 1 ∨ g.x_max + 1 < x ∨ y < g.y_min - 1 ∨
          g.y_max + 1 < y ∨ z < g.z_min - 1 ∨ g.z_max + 1 < z) →
        ¬(Day17.iterate_grid_3d g).is_cell_active x y z) := by
  intro x y z
  have hfold := Day17.foldl_toggle_active (Day17.lifeRule3 g)
    (Day17.iterBox3 g) g (x, y, z)
  have hiter : (Day17.iterate_grid_3d g).is_cell_active x y z ↔
      (if ((x, y, z) : ℤ × ℤ × ℤ) ∈ Day17.iterBox3 g then
        Day17.lifeRule3 g (x, y, z) = true
      else g.is_cell_active x y z) := hfold
  constructor
  · by_cases hbox : ((x, y, z) : ℤ × ℤ × ℤ) ∈ Day17.iterBox3 g
    · rw [hiter, if_pos hbox]
      exact Day17.lifeRule3_iff g (x, y, z)
    · rw [hiter, if_neg hbox]
      have hout : x < g.x_min - 1 ∨ g.x_max + 1 < x ∨ y < g.y_min - 1 ∨
          g.y_max + 1 < y ∨ z < g.z_min - 1 ∨ g.z_max + 1 < z := by
        by_contra hcon
        push_neg at hcon
        exact hbox (Day17.mem_iterBox3.mpr (by dsimp only; omega))
      have hinact : ¬g.is_cell_active x y z := by
        intro hact
        have hb := hin _ hact
        dsimp only at hb
        omega
      have hadj : g.count_adjacent x y z = 0 :=
        Day17.count_adjacent_far g hin x y z hout
      constructor
      · intro hact
        exact absurd hact hinact
      · rintro (⟨hact, -⟩ | ⟨-, h3⟩)
        · exact absurd hact hinact
        · omega
  · intro hout
    have hbox : ((x, y, z) : ℤ × ℤ × ℤ) ∉ Day17.iterBox3 g := by
      intro hmem
      have hm := Day17.mem_iterBox3.mp hmem
      dsimp only at hm
      omega
    rw [hiter, if_neg hbox]
    intro hact
    have hb := hin _ hact
    dsimp only at hb
    omega

/-- Witness for `C5_iterate_grid_3d` at the grid parsed from the example
input of the repository's day-17 tests. -/
theorem C5_iterate_grid_3d_witness :
    Day17.InBounds3 (Day17.parse_input_3d [".#.", "..#", "###"]) ∧
    ∀ x y z : ℤ,
      ((Day17.iterate_grid_3d
          (Day17.parse_input_3d [".#.", "..#", "###"])).is_cell_active x y z ↔
        (((Day17.parse_input_3d [".#.", "..#", "###"]).is_cell_active x y z ∧
            ((Day17.parse_input_3d [".#.", "..#", "###"]).count_adjacent x y z
                = 2 ∨
              (Day17.parse_input_3d [".#.", "..#", "###"]).count_adjacent x y z
                = 3)) ∨
          (¬(Day17.parse_input_3d [".#.", "..#", "###"]).is_cell_active x y z ∧
            (Day17.parse_input_3d [".#.", "..#", "###"]).count_adjacent x y z
              = 3))) ∧
      ((x < (Day17.parse_input_3d [".#.", "..#", "###"]).x_min - 1 ∨
          (Day17.parse_input_3d [".#.", "..#", "###"]).x_max + 1 < x ∨
          y < (Day17.parse_input_3d [".#.", "..#", "###"]).y_min - 1 ∨
          (Day17.parse_input_3d [".#.", "..#", "###"]).y_max + 1 < y ∨
          z < (Day17.parse_input_3d [".#.", "..#", "###"]).z_min - 1 ∨
          (Day17.parse_input_3d [".#.", "..#", "###"]).z_max + 1 < z) →
        ¬(Day17.iterate_grid_3d
            (Day17.parse_input_3d [".#.", "..#", "###"])).is_cell_active
          x y z) :=
  ⟨by decide, C5_iterate_grid_3d _ (by decide)⟩

namespace Day17

/-- Preservation of an invariant along a `foldl` (the shape of every write
loop in `src/day_17.rs`). -/
theorem foldl_inv {α β : Type _} (P : β → Prop) (f : β → α → β)
    (h : ∀ b a, P b → P (f b a)) :
    ∀ (l : List α) (b : β), P b → P (l.foldl f b)
  | [], _, hb => hb
  | a :: l, b, hb => foldl_inv P f h l (f b a) (h b a hb)

/-- The empty grid satisfies the bounds invariant. -/
theorem inBounds3_new : InBounds3 ThreeDGrid.new := by
  intro p hp
  simp [ThreeDGrid.new] at hp

/-- `ThreeDGrid::toggle_cell` preserves the bounds invariant: activating a
cell widens the bounds to cover it; deactivating only removes cells. -/
theorem toggle_cell_inBounds3 (g : ThreeDGrid) (x y z : ℤ) (b : Bool)
    (hin : InBounds3 g) : InBounds3 (g.toggle_cell x y z b) := by
  intro p hp
  cases b
  · simp only [ThreeDGrid.toggle_cell, Bool.false_eq_true, if_false] at hp ⊢
    exact hin p (Finset.mem_of_mem_erase hp)
  · simp only [ThreeDGrid.toggle_cell, if_true] at hp ⊢
    rcases Finset.mem_insert.mp hp with rfl | hp
    · dsimp only
      omega
    · have := hin p hp
      omega

/-- `parse_input_3d` builds a grid satisfying the bounds invariant. -/
theorem parse_input_3d_inBounds3 (lines : List String) :
    InBounds3 (parse_input_3d lines) := by
  unfold parse_input_3d
  apply foldl_inv InBounds3 _ _ _ _ inBounds3_new
  intro g ly hg
  apply foldl_inv InBounds3 _ _ _ _ hg
  intro g2 lx hg2
  exact toggle_cell_inBounds3 g2 _ _ _ _ hg2

/-- `iterate_grid_3d` preserves the bounds invariant. -/
theorem iterate_grid_3d_inBounds3 (g : ThreeDGrid) (hin : InBounds3 g) :
    InBounds3 (iterate_grid_3d g) := by
  unfold iterate_grid_3d
  apply foldl_inv InBounds3 _ _ _ _ hin
  intro g2 c hg2
  exact toggle_cell_inBounds3 g2 _ _ _ _ hg2

/-- A successful association-list lookup locates an entry of the list. -/
theorem lookup_mem {l : List (ℤ × ThreeDGrid)} {w : ℤ} {c : ThreeDGrid}
    (h : l.lookup w = some c) : (w, c) ∈ l := by
  induction l with
  | nil => simp [List.lookup] at h
  | cons q rest ih =>
    obtain ⟨k, v⟩ := q
    rw [List.lookup_cons] at h
    by_cases hw : w = k
    · have hb : (w == k) = true := beq_iff_eq.mpr hw
      rw [hb] at h
      obtain rfl : v = c := by simpa using h
      subst hw
      exact List.mem_cons_self _ _
    · have hb : (w == k) = false := by simp [hw]
      rw [hb] at h
      exact List.mem_cons_of_mem _ (ih h)

/-- Entries of `updateCube l w c` are the new entry or entries of `l`. -/
theorem updateCube_mem {l : List (ℤ × ThreeDGrid)} {w : ℤ} {c : ThreeDGrid}
    {p : ℤ × ThreeDGrid} (h : p ∈ updateCube l w c) :
    p = (w, c) ∨ p ∈ l := by
  induction l with
  | nil =>
    rw [updateCube] at h
    rcases List.mem_cons.mp h with h | h
    · exact Or.inl h
    · simp at h
  | cons q rest ih =>
    rw [updateCube] at h
    by_cases hq : q.1 = w
    · rw [if_pos hq] at h
      rcases List.mem_cons.mp h with h | h
      · exact Or.inl h
      · exact Or.inr (List.mem_cons_of_mem q h)
    · rw [if_neg hq] at h
      rcases List.mem_cons.mp h with h | h
      · exact Or.inr (h ▸ List.mem_cons_self q rest)
      · rcases ih h with h | h
        · exact Or.inl h
        · exact Or.inr (List.mem_cons_of_mem q h)

/-- The empty 4D grid satisfies the bounds invariant. -/
theorem inBounds4_new : InBounds4 FourDGrid.new := by
  intro p hp
  simp [FourDGrid.new] at hp

/-- `FourDGrid::toggle_cell` preserves the bounds invariant. -/
theorem toggle_cell_inBounds4 (g : FourDGrid) (x y z w : ℤ) (b : Bool)
    (hin : InBounds4 g) : InBounds4 (g.toggle_cell x y z w b) := by
  intro p hp
  have hp' : p = (w, ((g.grid.lookup w).getD ThreeDGrid.new).toggle_cell
      x y z b) ∨ p ∈ g.grid := updateCube_mem hp
  have hcube0 : InBounds3 ((g.grid.lookup w).getD ThreeDGrid.new) := by
    cases hlk : g.grid.lookup w with
    | none => exact inBounds3_new
    | some c0 =>
      have := hin (w, c0) (lookup_mem hlk)
      exact this.1
  rcases hp' with rfl | hp'
  · refine ⟨toggle_cell_inBounds3 _ _ _ _ _ hcube0, ?_⟩
    intro cell hcell
    cases b
    · -- deactivation: cells shrink and the `w` bounds are unchanged
      simp only [ThreeDGrid.toggle_cell, Bool.false_eq_true, if_false]
        at hcell
      have hcell0 := Finset.mem_of_mem_erase hcell
      cases hlk : g.grid.lookup w with
      | none =>
        rw [hlk] at hcell0
        simp [ThreeDGrid.new] at hcell0
      | some c0 =>
        rw [hlk] at hcell0
        have := (hin (w, c0) (lookup_mem hlk)).2 cell hcell0
        simp only [FourDGrid.toggle_cell, Bool.false_eq_true, if_false]
        exact this
    · -- activation: the `w` bounds are widened to cover `w`
      simp only [FourDGrid.toggle_cell, if_true]
      omega
  · have h1 := hin p hp'
    refine ⟨h1.1, ?_⟩
    intro cell hcell
    have h2 := h1.2 cell hcell
    cases b
    · simp only [FourDGrid.toggle_cell, Bool.false_eq_true, if_false]
      exact h2
    · simp only [FourDGrid.toggle_cell, if_true]
      omega

/-- `parse_input_4d` builds a grid satisfying the bounds invariant. -/
theorem parse_input_4d_inBounds4 (lines : List String) :
    InBounds4 (parse_input_4d lines) := by
  unfold parse_input_4d
  apply foldl_inv InBounds4 _ _ _ _ inBounds4_new
  intro g ly hg
  apply foldl_inv InBounds4 _ _ _ _ hg
  intro g2 lx hg2
  exact toggle_cell_inBounds4 g2 _ _ _ _ _ hg2

/-- `iterate_grid_4d` preserves the bounds invariant. -/
theorem iterate_grid_4d_inBounds4 (g : FourDGrid) (hin : InBounds4 g) :
    InBounds4 (iterate_grid_4d g) := by
  unfold iterate_grid_4d
  apply foldl_inv InBounds4 _ _ _ _ hin
  intro g2 c hg2
  exact toggle_cell_inBounds4 g2 _ _ _ _ _ hg2

end Day17

/-- C8: the bounds invariant of the day-17 grids.  Starting from
`ThreeDGrid::new`, any sequence of `toggle_cell` calls leaves every active
cell within the recorded bounds; the invariant also holds for the grids
built by `parse_input_3d` / `parse_input_4d` and is preserved by
`iterate_grid_3d` / `iterate_grid_4d`; for `FourDGrid` the active cells
additionally lie within the recorded `w` bounds. -/
theorem C8_grid_bounds_invariant :
    (∀ ops : List (ℤ × ℤ × ℤ × Bool),
      Day17.InBounds3 (ops.foldl
        (fun g o => g.toggle_cell o.1 o.2.1 o.2.2.1 o.2.2.2)
        Day17.ThreeDGrid.new)) ∧
    (∀ lines : List String, Day17.InBounds3 (Day17.parse_input_3d lines)) ∧
    (∀ g : Day17.ThreeDGrid, Day17.InBounds3 g →
      Day17.InBounds3 (Day17.iterate_grid_3d g)) ∧
    (∀ ops : List (ℤ × ℤ × ℤ × ℤ × Bool),
      Day17.InBounds4 (ops.foldl
        (fun g o => g.toggle_cell o.1 o.2.1 o.2.2.1 o.2.2.2.1 o.2.2.2.2)
        Day17.FourDGrid.new)) ∧
    (∀ lines : List String, Day17.InBounds4 (Day17.parse_input_4d lines)) ∧
    (∀ g : Day17.FourDGrid, Day17.InBounds4 g →
      Day17.InBounds4 (Day17.iterate_grid_4d g)) := by
  refine ⟨?_, Day17.parse_input_3d_inBounds3, Day17.iterate_grid_3d_inBounds3,
    ?_, Day17.parse_input_4d_inBounds4, Day17.iterate_grid_4d_inBounds4⟩
  · intro ops
    apply Day17.foldl_inv Day17.InBounds3 _ _ _ _ Day17.inBounds3_new
    intro g o hg
    exact Day17.toggle_cell_inBounds3 g _ _ _ _ hg
  · intro ops
    apply Day17.foldl_inv Day17.InBounds4 _ _ _ _ Day17.inBounds4_new
    intro g o hg
    exact Day17.toggle_cell_inBounds4 g _ _ _ _ _ hg

/-- Witness for `C8_grid_bounds_invariant`: instantiation of the
preservation parts at the grids parsed from the repository's day-17 test
input (the universally quantified parts need no hypothesis; the two
conditional parts are applied at a grid whose invariant is checked by
evaluation). -/
theorem C8_grid_bounds_invariant_witness :
    Day17.InBounds3 (Day17.parse_input_3d [".#.", "..#", "###"]) ∧
    Day17.InBounds3
      (Day17.iterate_grid_3d (Day17.parse_input_3d [".#.", "..#", "###"])) ∧
    Day17.InBounds4 (Day17.parse_input_4d [".#."]) ∧
    Day17.InBounds4 (Day17.iterate_grid_4d (Day17.parse_input_4d [".#."])) :=
  ⟨by decide,
    C8_grid_bounds_invariant.2.2.1 _ (by decide),
    by decide,
    C8_grid_bounds_invariant.2.2.2.2.2 _ (by decide)⟩

namespace Day14

/-- The doubling step with the shift written as a power of two. -/
theorem orStep_eq (s : Finset ℕ) (i : ℕ) :
    orStep s i = s ∪ s.image (fun a => a ||| 2 ^ i) := by
  rw [orStep, Nat.shiftLeft_eq, one_mul]

/-- The loop guard `(1 << i) & mask != 0` tests bit `i` of the mask. -/
theorem guard_iff (m i : ℕ) : ((1 <<< i) &&& m ≠ 0) ↔ m.testBit i = true := by
  rw [Nat.shiftLeft_eq, one_mul]
  constructor
  · intro h
    by_contra hb
    apply h
    apply Nat.eq_of_testBit_eq
    intro j
    rw [Nat.testBit_and, Nat.zero_testBit]
    by_cases hij : i = j
    · subst hij
      simp [Bool.eq_false_iff.mpr hb]
    · simp [Nat.testBit_two_pow_of_ne hij]
  · intro h h0
    have : (2 ^ i &&& m).testBit i = true := by
      rw [Nat.testBit_and, Nat.testBit_two_pow_self, h]
      rfl
    rw [h0, Nat.zero_testBit] at this
    exact Bool.false_ne_true this

/-- The conditional fold of `explode_addresses` equals the unconditional
fold over the list of set mask bits. -/
theorem foldl_guard_eq (m : ℕ) :
    ∀ (l : List ℕ) (s : Finset ℕ),
      l.foldl (fun s i => if (1 <<< i) &&& m ≠ 0 then orStep s i else s) s =
        (l.filter (fun i => m.testBit i)).foldl orStep s
  | [], s => rfl
  | i :: l, s => by
    rw [List.foldl_cons, List.filter_cons]
    by_cases h : m.testBit i = true
    · rw [if_pos ((guard_iff m i).mpr h), if_pos (by simpa using h),
        List.foldl_cons, foldl_guard_eq m l]
    · rw [if_neg (fun hg => h ((guard_iff m i).mp hg)),
        if_neg (by simpa using h), foldl_guard_eq m l]

/-- Membership after folding `orStep` over a list of bit positions: the
reachable values are exactly those that extend some start value by turning
on bits from the list. -/
theorem mem_orFold (bits : List ℕ) :
    ∀ (A : Finset ℕ) (r : ℕ),
      r ∈ bits.foldl orStep A ↔
        ∃ a ∈ A, (∀ j, a.testBit j = true → r.testBit j = true) ∧
          (∀ j, r.testBit j = true → a.testBit j = true ∨ j ∈ bits) := by
  induction bits with
  | nil =>
    intro A r
    simp only [List.foldl_nil]
    constructor
    · intro hr
      exact ⟨r, hr, fun j h => h, fun j h => Or.inl h⟩
    · rintro ⟨a, ha, hsub, hextra⟩
      have : r = a := by
        apply Nat.eq_of_testBit_eq
        intro j
        cases hrj : r.testBit j
        · cases haj : a.testBit j
          · rfl
          · exact absurd (hsub j haj) (by rw [hrj]; exact Bool.false_ne_true)
        · rcases hextra j hrj with h | h
          · exact h.symm
          · simp at h
      rw [this]
      exact ha
  | cons i bits ih =>
    intro A r
    rw [List.foldl_cons, ih, orStep_eq]
    constructor
    · rintro ⟨a', ha', hsub, hextra⟩
      rcases Finset.mem_union.mp ha' with ha' | ha'
      · exact ⟨a', ha', hsub,
          fun j hj => (hextra j hj).imp_right (List.mem_cons_of_mem i)⟩
      · obtain ⟨a, ha, rfl⟩ := Finset.mem_image.mp ha'
        refine ⟨a, ha, ?_, ?_⟩
        · intro j hj
          exact hsub j (by rw [Nat.testBit_or, hj]; rfl)
        · intro j hj
          rcases hextra j hj with h | h
          · rw [Nat.testBit_or, Bool.or_eq_true] at h
            rcases h with h | h
            · exact Or.inl h
            · right
              rw [Nat.testBit_two_pow] at h
              rw [← of_decide_eq_true h]
              exact List.mem_cons_self i bits
          · exact Or.inr (List.mem_cons_of_mem i h)
    · rintro ⟨a, ha, hsub, hextra⟩
      by_cases hcase : r.testBit i = true ∧ a.testBit i = false
      · refine ⟨a ||| 2 ^ i,
          Finset.mem_union_right _ (Finset.mem_image_of_mem _ ha), ?_, ?_⟩
        · intro j hj
          rw [Nat.testBit_or, Bool.or_eq_true] at hj
          rcases hj with h | h
          · exact hsub j h
          · rw [Nat.testBit_two_pow] at h
            rw [← of_decide_eq_true h]
            exact hcase.1
        · intro j hj
          rcases hextra j hj with h | h
          · left
            rw [Nat.testBit_or, h]
            rfl
          · rcases List.mem_cons.mp h with rfl | h
            · left
              rw [Nat.testBit_or, Nat.testBit_two_pow_self]
              exact Bool.or_true _
            · exact Or.inr h
      · refine ⟨a, Finset.mem_union_left _ ha, hsub, ?_⟩
        intro j hj
        rcases hextra j hj with h | h
        · exact Or.inl h
        · rcases List.mem_cons.mp h with rfl | h
          · left
            cases haj : a.testBit j
            · exact absurd ⟨hj, haj⟩ hcase
            · rfl
          · exact Or.inr h

/-- Cardinality after folding `orStep` over distinct bit positions that
are clear in every start value: each step exactly doubles the set. -/
theorem card_orFold (bits : List ℕ) :
    ∀ A : Finset ℕ, bits.Nodup →
      (∀ r ∈ A, ∀ j ∈ bits, r.testBit j = false) →
      (bits.foldl orStep A).card = A.card * 2 ^ bits.length := by
  induction bits with
  | nil =>
    intro A _ _
    simp
  | cons i bits ih =>
    intro A hnd hclear
    rw [List.foldl_cons, orStep_eq]
    have hdisj : Disjoint A (A.image (fun a => a ||| 2 ^ i)) := by
      rw [Finset.disjoint_left]
      intro x hx hx'
      obtain ⟨a, ha, rfl⟩ := Finset.mem_image.mp hx'
      have h1 : (a ||| 2 ^ i).testBit i = false :=
        hclear _ hx i (List.mem_cons_self i bits)
      rw [Nat.testBit_or, Nat.testBit_two_pow_self, Bool.or_true] at h1
      simp at h1
    have hinj : Set.InjOn (fun a => a ||| 2 ^ i) A := by
      intro x hx y hy hxy
      apply Nat.eq_of_testBit_eq
      intro j
      by_cases hij : j = i
      · subst hij
        rw [hclear x hx j (List.mem_cons_self j bits),
          hclear y hy j (List.mem_cons_self j bits)]
      · have h2 := congrArg (fun n => Nat.testBit n j) hxy
        simp only [Nat.testBit_or, Nat.testBit_two_pow_of_ne (Ne.symm hij),
          Bool.or_false] at h2
        exact h2
    have hcard : (A ∪ A.image (fun a => a ||| 2 ^ i)).card = 2 * A.card := by
      rw [Finset.card_union_of_disjoint hdisj,
        Finset.card_image_of_injOn hinj]
      ring
    have hclear' : ∀ r ∈ A ∪ A.image (fun a => a ||| 2 ^ i),
        ∀ j ∈ bits, r.testBit j = false := by
      intro r hr j hj
      have hji : j ≠ i := fun h => (List.nodup_cons.mp hnd).1 (h ▸ hj)
      rcases Finset.mem_union.mp hr with hr | hr
      · exact hclear r hr j (List.mem_cons_of_mem i hj)
      · obtain ⟨a, ha, rfl⟩ := Finset.mem_image.mp hr
        rw [Nat.testBit_or, hclear a ha j (List.mem_cons_of_mem i hj),
          Nat.testBit_two_pow_of_ne (Ne.symm hji)]
        rfl
    rw [ih _ (List.nodup_cons.mp hnd).2 hclear', hcard, List.length_cons]
    ring

/-- Bits set in the mask are cleared in the base address
`(input | mask.data) & !mask.mask`. -/
theorem base_testBit_float (m : Mask) (a : ℕ) {j : ℕ} (hj : j < 64)
    (hb : m.mask.testBit j = true) :
    ((a ||| m.data) &&& ((2 ^ 64 - 1) ^^^ m.mask)).testBit j = false := by
  rw [Nat.testBit_and, Nat.testBit_xor, Nat.testBit_two_pow_sub_one, hb]
  simp [hj]

end Day14

/-- C9: `explode_addresses(m, a)` contains exactly `2^k` addresses, where
`k` counts the set bits among the low 36 bits of `m.mask`; every returned
address agrees with the base `(a | m.data) & !m.mask` outside the mask
(`r & !m.mask = (a | m.data) & !m.mask`); and the returned addresses are
exactly those agreeing with the base on every non-floating bit position,
i.e. those obtained from the base by freely setting or clearing the `k`
floating bits. -/
theorem C9_explode_addresses (m : Day14.Mask) (a : ℕ)
    (hm : m.mask < 2 ^ 64) :
    (Day14.explode_addresses m a).card =
        2 ^ ((List.range 36).countP (fun i => m.mask.testBit i)) ∧
    (∀ r ∈ Day14.explode_addresses m a,
      r &&& ((2 ^ 64 - 1) ^^^ m.mask) =
        (a ||| m.data) &&& ((2 ^ 64 - 1) ^^^ m.mask)) ∧
    (∀ r : ℕ, r ∈ Day14.explode_addresses m a ↔
      ∀ j : ℕ, ¬(j < 36 ∧ m.mask.testBit j = true) →
        r.testBit j =
          ((a ||| m.data) &&& ((2 ^ 64 - 1) ^^^ m.mask)).testBit j) := by
  set base := (a ||| m.data) &&& ((2 ^ 64 - 1) ^^^ m.mask) with hbase
  set fbits := (List.range 36).filter (fun i => m.mask.testBit i) with hfbits
  have hfbits_mem : ∀ j, j ∈ fbits ↔ j < 36 ∧ m.mask.testBit j = true := by
    intro j
    rw [hfbits, List.mem_filter, List.mem_range]
  have hbase_clear : ∀ j ∈ fbits, base.testBit j = false := by
    intro j hj
    have h := (hfbits_mem j).mp hj
    exact Day14.base_testBit_float m a (by omega) h.2
  have hexp : Day14.explode_addresses m a = fbits.foldl Day14.orStep {base} :=
    Day14.foldl_guard_eq m.mask (List.range 36) {base}
  refine ⟨?_, ?_, ?_⟩
  · rw [hexp, Day14.card_orFold fbits {base}
      ((List.nodup_range 36).filter _)
      (by
        intro r hr j hj
        rw [Finset.mem_singleton] at hr
        rw [hr]
        exact hbase_clear j hj),
      Finset.card_singleton, one_mul, List.countP_eq_length_filter]
  · intro r hr
    rw [hexp, Day14.mem_orFold] at hr
    obtain ⟨b, hb, hsub, hextra⟩ := hr
    rw [Finset.mem_singleton] at hb
    subst hb
    apply Nat.eq_of_testBit_eq
    intro j
    rw [Nat.testBit_and, Nat.testBit_and]
    by_cases hmb : m.mask.testBit j = true
    · have hj64 : j < 64 := by
        by_contra hge
        push_neg at hge
        have hf : m.mask.testBit j = false :=
          Nat.testBit_lt_two_pow
            (lt_of_lt_of_le hm (Nat.pow_le_pow_right (by norm_num) hge))
        rw [hmb] at hf
        simp at hf
      have hnm : ((2 ^ 64 - 1) ^^^ m.mask).testBit j = false := by
        rw [Nat.testBit_xor, Nat.testBit_two_pow_sub_one, hmb]
        simp [hj64]
      rw [hnm, Bool.and_false, Bool.and_false]
    · have heq : r.testBit j = base.testBit j := by
        cases hrj : r.testBit j
        · cases hbj : base.testBit j
          · rfl
          · exact absurd (hsub j hbj)
              (by rw [hrj]; exact Bool.false_ne_true)
        · rcases hextra j hrj with h | h
          · exact h.symm
          · exact absurd ((hfbits_mem j).mp h).2 hmb
      have h2 : base.testBit j =
          ((a ||| m.data).testBit j &&
            ((2 ^ 64 - 1) ^^^ m.mask).testBit j) := by
        rw [hbase, Nat.testBit_and]
      rw [heq, h2, Bool.and_assoc, Bool.and_self]
  · intro r
    rw [hexp, Day14.mem_orFold]
    constructor
    · rintro ⟨b, hb, hsub, hextra⟩ j hj
      rw [Finset.mem_singleton] at hb
      subst hb
      cases hrj : r.testBit j
      · cases hbj : base.testBit j
        · rfl
        · exact absurd (hsub j hbj) (by rw [hrj]; exact Bool.false_ne_true)
      · rcases hextra j hrj with h | h
        · exact h.symm
        · exact absurd ((hfbits_mem j).mp h) hj
    · intro hagree
      refine ⟨base, Finset.mem_singleton_self base, ?_, ?_⟩
      · intro j hbj
        by_cases hfl : j < 36 ∧ m.mask.testBit j = true
        · exact absurd hbj
            (by
              rw [hbase_clear j ((hfbits_mem j).mpr hfl)]
              exact Bool.false_ne_true)
        · rw [hagree j hfl]
          exact hbj
      · intro j hrj
        by_cases hfl : j < 36 ∧ m.mask.testBit j = true
        · exact Or.inr ((hfbits_mem j).mpr hfl)
        · left
          rw [← hagree j hfl]
          exact hrj

/-- Witness for `C9_explode_addresses` at the mask and address of the
repository's day-14 test (`mask = 0b100001`, `data = 0b010010`,
address 42, four exploded addresses). -/
theorem C9_explode_addresses_witness :
    (Day14.Mask.mk 0b100001 0b010010).mask < 2 ^ 64 ∧
    ((Day14.explode_addresses ⟨0b100001, 0b010010⟩ 42).card =
        2 ^ ((List.range 36).countP
          (fun i => (Day14.Mask.mk 0b100001 0b010010).mask.testBit i)) ∧
      (∀ r ∈ Day14.explode_addresses ⟨0b100001, 0b010010⟩ 42,
        r &&& ((2 ^ 64 - 1) ^^^ (Day14.Mask.mk 0b100001 0b010010).mask) =
          (42 ||| (Day14.Mask.mk 0b100001 0b010010).data) &&&
            ((2 ^ 64 - 1) ^^^ (Day14.Mask.mk 0b100001 0b010010).mask)) ∧
      (∀ r : ℕ, r ∈ Day14.explode_addresses ⟨0b100001, 0b010010⟩ 42 ↔
        ∀ j : ℕ,
          ¬(j < 36 ∧ (Day14.Mask.mk 0b100001 0b010010).mask.testBit j = true) →
          r.testBit j =
            ((42 ||| (Day14.Mask.mk 0b100001 0b010010).data) &&&
              ((2 ^ 64 - 1) ^^^
                (Day14.Mask.mk 0b100001 0b010010).mask)).testBit j)) :=
  ⟨by decide, C9_explode_addresses ⟨0b100001, 0b010010⟩ 42 (by decide)⟩

namespace Runner

/-- For a selection in `1..=17` the computed index is `day - 1`, which
hits the runner vector. -/
theorem selectedIndex_of_valid (day : ℤ) (h1 : 1 ≤ day) (h2 : day ≤ 17) :
    selectedIndex day = (day - 1).toNat ∧ selectedIndex day < 17 := by
  unfold selectedIndex usizeOfI32 wrap32
  omega

/-- For any other `i32` selection (including `0` and `i32::MIN`) the
computed index misses the 17-element runner vector. -/
theorem selectedIndex_ge (day : ℤ) (hlo : -2 ^ 31 ≤ day) (hhi : day < 2 ^ 31)
    (h : day < 1 ∨ 17 < day) : 17 ≤ selectedIndex day := by
  unfold selectedIndex usizeOfI32 wrap32
  omega

/-- Output of the run-all loop when every day's input is available: the
days run in list order, each preceded by its header and followed by the
elapsed-time line. -/
theorem runAll_out (P : Fin 17 → String → List String)
    (fs0 : String → Option String) (contents : Fin 17 → String)
    (hc : ∀ i, dayInput fs0 i = some (contents i)) :
    ∀ (l : List (Fin 17)) (w : World), w.fs = fs0 →
      l.foldl (runAllStep P) (some w) =
        some ⟨fs0, w.out ++ l.flatMap (fun i =>
          ["==== Day " ++ toString (i.val + 1) ++ " ===="] ++
            P i (contents i) ++ ["-- took <elapsed>"])⟩ := by
  intro l
  induction l with
  | nil =>
    intro w hw
    obtain ⟨fs, out⟩ := w
    simp only at hw
    subst hw
    simp
  | cons i l ih =>
    intro w hw
    rw [List.foldl_cons]
    have hstep : runAllStep P (some w) i =
        some ⟨w.fs, (w.out ++ ["==== Day " ++ toString (i.val + 1) ++ " ===="]
          ++ P i (contents i)) ++ ["-- took <elapsed>"]⟩ := by
      unfold runAllStep dayRun
      dsimp only
      rw [hw, hc i]
    rw [hstep, ih _ (by exact hw)]
    simp [List.append_assoc]

end Runner

/-- C1: for an `i32` read at the prompt, `main` runs exactly day `n`'s
runner when `1 ≤ n ≤ 17`; when `n = 0` it runs all 17 runners in
ascending day order, printing an elapsed-time line after each; for every
other `n` it runs no runner and prints the `Invalid Day` report.  (`i32`
arithmetic is modelled with release semantics, i.e. `day - 1` wraps at
`i32::MIN`; elapsed-time lines are modelled by placeholders, their
wall-clock contents being outside the deterministic model.) -/
theorem C1_main_selector (P : Fin 17 → String → List String) (day : ℤ)
    (hlo : -2 ^ 31 ≤ day) (hhi : day < 2 ^ 31) (w : Runner.World) :
    (∀ i : Fin 17, 1 ≤ day → day ≤ 17 → i.val = (day - 1).toNat →
      Runner.mainRun P day w =
        Runner.finishWorld
          (Runner.dayRun P i ⟨w.fs, w.out ++ [Runner.mainPrompt]⟩)) ∧
    (day = 0 → ∀ contents : Fin 17 → String,
      (∀ i, Runner.dayInput w.fs i = some (contents i)) →
      Runner.mainRun P day w =
        some ⟨w.fs,
          (w.out ++ [Runner.mainPrompt] ++
            (List.finRange 17).flatMap (fun i =>
              ["==== Day " ++ toString (i.val + 1) ++ " ===="] ++
                P i (contents i) ++ ["-- took <elapsed>"])) ++
            ["", "Finished in <elapsed>"]⟩) ∧
    ((day < 1 ∨ 17 < day) → day ≠ 0 →
      Runner.mainRun P day w =
        some ⟨w.fs,
          (w.out ++ [Runner.mainPrompt] ++ ["Invalid Day " ++ toString day]) ++
            ["", "Finished in <elapsed>"]⟩) := by
  refine ⟨?_, ?_, ?_⟩
  · intro i h1 h2 hi
    obtain ⟨hsel, hlt⟩ := Runner.selectedIndex_of_valid day h1 h2
    have hieq : (⟨Runner.selectedIndex day, hlt⟩ : Fin 17) = i := by
      apply Fin.ext
      show Runner.selectedIndex day = i.val
      rw [hsel, hi]
    simp only [Runner.mainRun]
    rw [dif_pos hlt, hieq]
  · intro h0 contents hc
    have hge := Runner.selectedIndex_ge day hlo hhi (Or.inl (by omega))
    simp only [Runner.mainRun]
    rw [dif_neg (by omega), if_pos h0,
      Runner.runAll_out P w.fs contents hc (List.finRange 17)
        ⟨w.fs, w.out ++ [Runner.mainPrompt]⟩ rfl]
    rfl
  · intro h hne
    have hge := Runner.selectedIndex_ge day hlo hhi h
    simp only [Runner.mainRun]
    rw [dif_neg (by omega), if_neg hne]
    rfl

/-- Witness for `C1_main_selector` at `day = 3` (and, via the same
theorem's other conjuncts through separate applications, `day = 0` and
`day = 99`), with a file system holding every input file. -/
theorem C1_main_selector_witness :
    (-2 ^ 31 ≤ (3 : ℤ) ∧ (3 : ℤ) < 2 ^ 31 ∧ (1 : ℤ) ≤ 3 ∧ (3 : ℤ) ≤ 17 ∧
      (⟨2, by norm_num⟩ : Fin 17).val = ((3 : ℤ) - 1).toNat) ∧
    Runner.mainRun (fun _ c => [c]) 3 ⟨fun _ => some "x", []⟩ =
      Runner.finishWorld
        (Runner.dayRun (fun _ c => [c]) ⟨2, by norm_num⟩
          ⟨fun _ => some "x", [] ++ [Runner.mainPrompt]⟩) :=
  ⟨⟨by norm_num, by norm_num, by norm_num, by norm_num, by decide⟩,
    (C1_main_selector (fun _ c => [c]) 3 (by norm_num) (by norm_num)
        ⟨fun _ => some "x", []⟩).1
      ⟨2, by norm_num⟩ (by norm_num) (by norm_num) (by decide)⟩

namespace Runner

/-- A day's run leaves the file system unchanged. -/
theorem dayRun_fs {P : Fin 17 → String → List String} {i : Fin 17}
    {w w' : World} (h : dayRun P i w = some w') : w'.fs = w.fs := by
  unfold dayRun at h
  cases hdi : dayInput w.fs i with
  | none => rw [hdi] at h; exact absurd h (by simp)
  | some c =>
    rw [hdi] at h
    obtain rfl : (⟨w.fs, w.out ++ P i c⟩ : World) = w' := by simpa using h
    rfl

/-- The lines printed by a day's run depend only on the file system, not
on previously printed output. -/
theorem newOut_congr_fs (P : Fin 17 → String → List String) (i : Fin 17)
    (w1 w2 : World) (hfs : w1.fs = w2.fs) :
    newOut w1 (dayRun P i w1) = newOut w2 (dayRun P i w2) := by
  unfold newOut dayRun
  rw [hfs]
  cases hdi : dayInput w2.fs i with
  | none => rfl
  | some c => simp [List.drop_left]

/-- The run-all loop leaves the file system unchanged. -/
theorem runAll_fs (P : Fin 17 → String → List String) :
    ∀ (l : List (Fin 17)) (w w' : World),
      l.foldl (runAllStep P) (some w) = some w' → w'.fs = w.fs := by
  intro l
  induction l with
  | nil =>
    intro w w' h
    obtain rfl : w = w' := by simpa using h
    rfl
  | cons i l ih =>
    intro w w' h
    rw [List.foldl_cons] at h
    cases hdr : dayRun P i
        ⟨w.fs, w.out ++ ["==== Day " ++ toString (i.val + 1) ++ " ===="]⟩ with
    | none =>
      have hacc : runAllStep P (some w) i = none := by
        simp only [runAllStep]
        rw [hdr]
      rw [hacc] at h
      have hnone : ∀ l' : List (Fin 17),
          l'.foldl (runAllStep P) none = (none : Option World) := by
        intro l'
        induction l' with
        | nil => rfl
        | cons j l' ih' => rw [List.foldl_cons]; exact ih'
      rw [hnone] at h
      exact absurd h (by simp)
    | some wd =>
      have hacc : runAllStep P (some w) i =
          some ⟨wd.fs, wd.out ++ ["-- took <elapsed>"]⟩ := by
        simp only [runAllStep]
        rw [hdr]
      rw [hacc] at h
      have h2 := ih _ _ h
      rw [h2]
      show wd.fs = w.fs
      exact @dayRun_fs P i
        ⟨w.fs, w.out ++ ["==== Day " ++ toString (i.val + 1) ++ " ===="]⟩
        wd hdr

/-- `main` leaves the file system unchanged. -/
theorem mainRun_fs (P : Fin 17 → String → List String) (day : ℤ)
    (w w' : World) (h : mainRun P day w = some w') : w'.fs = w.fs := by
  simp only [mainRun] at h
  set w0 : World := ⟨w.fs, w.out ++ [mainPrompt]⟩ with hw0
  have hfin : ∀ r (w2 : World), finishWorld r = some w2 →
      ∃ w1, r = some w1 ∧ w2.fs = w1.fs := by
    intro r w2 hr
    cases r with
    | none => exact absurd hr (by simp [finishWorld])
    | some w1 =>
      refine ⟨w1, rfl, ?_⟩
      obtain rfl : (⟨w1.fs, w1.out ++ ["", "Finished in <elapsed>"]⟩ : World)
          = w2 := by simpa [finishWorld] using hr
      rfl
  by_cases hlt : selectedIndex day < 17
  · rw [dif_pos hlt] at h
    obtain ⟨w1, hr, hfs⟩ := hfin _ _ h
    rw [hfs, dayRun_fs hr]
  · rw [dif_neg hlt] at h
    by_cases h0 : day = 0
    · rw [if_pos h0] at h
      obtain ⟨w1, hr, hfs⟩ := hfin _ _ h
      rw [hfs, runAll_fs P _ _ _ hr]
    · rw [if_neg h0] at h
      obtain ⟨w1, hr, hfs⟩ := hfin _ _ h
      obtain rfl : (⟨w0.fs, w0.out ++ ["Invalid Day " ++ toString day]⟩
          : World) = w1 := by simpa using hr
      rw [hfs]

end Runner

/-- C3 fails as stated on day 15: with an empty file system (every read
aborts), day 15's runner still succeeds and computes from its hardcoded
input string, while day 1's runner aborts; so not every day runner obtains
its input by reading a file. -/
theorem C3_day15_reads_no_file_counterexample :
    Runner.dayPath ⟨14, by norm_num⟩ = none ∧
    Runner.dayInput (fun _ => none) ⟨14, by norm_num⟩ =
      some Runner.day15Contents ∧
    (Runner.dayRun (fun _ _ => []) ⟨14, by norm_num⟩
      ⟨fun _ => none, []⟩).isSome = true ∧
    (Runner.dayRun (fun _ _ => []) ⟨0, by norm_num⟩
      ⟨fun _ => none, []⟩).isSome = false :=
  ⟨rfl, rfl, rfl, rfl⟩

/-- C3 (amended): every day module's run except day 15's obtains its
input by reading exactly its one fixed file before computing and printing
(aborting when it is missing, and its output depending on the file system
only through that file); day 15's run uses the hardcoded input string and
reads no file. -/
theorem C3_day_input_files (P : Fin 17 → String → List String) (i : Fin 17)
    (w : Runner.World) :
    (i.val ≠ 14 →
      ∃ path : String, Runner.dayPath i = some path ∧
        (w.fs path = none → Runner.dayRun P i w = none) ∧
        (∀ c, w.fs path = some c →
          Runner.dayRun P i w = some ⟨w.fs, w.out ++ P i c⟩)) ∧
    (i.val = 14 →
      Runner.dayRun P i w = some ⟨w.fs, w.out ++ P i Runner.day15Contents⟩) ∧
    (∀ (fs2 : String → Option String) (out2 : List String),
      (∀ path, Runner.dayPath i = some path → w.fs path = fs2 path) →
      Runner.newOut w (Runner.dayRun P i w) =
        Runner.newOut ⟨fs2, out2⟩ (Runner.dayRun P i ⟨fs2, out2⟩)) := by
  refine ⟨?_, ?_, ?_⟩
  · intro h14
    have hs : (Runner.dayPath i).isSome = true := by
      have hall : ∀ n : Fin 17, n.val ≠ 14 →
          (Runner.dayPaths.getD n.val none).isSome = true := by decide
      exact hall i h14
    obtain ⟨path, hp⟩ := Option.isSome_iff_exists.mp hs
    refine ⟨path, hp, ?_, ?_⟩
    · intro h
      unfold Runner.dayRun Runner.dayInput
      rw [hp]
      dsimp only
      rw [h]
    · intro c h
      unfold Runner.dayRun Runner.dayInput
      rw [hp]
      dsimp only
      rw [h]
  · intro h14
    have hnone : Runner.dayPath i = none := by
      have hall : ∀ n : Fin 17, n.val = 14 →
          Runner.dayPaths.getD n.val none = none := by decide
      exact hall i h14
    unfold Runner.dayRun Runner.dayInput
    rw [hnone]
  · intro fs2 out2 hagree
    unfold Runner.newOut Runner.dayRun Runner.dayInput
    cases hpath : Runner.dayPath i with
    | none => simp [List.drop_left]
    | some path =>
      dsimp only
      rw [hagree path hpath]
      cases hw2 : fs2 path with
      | none => rfl
      | some c => simp [List.drop_left]

/-- Witness for `C3_day_input_files`: day 1 reads its fixed file from a
file system holding `"data"` everywhere, and day 15 runs on its hardcoded
input. -/
theorem C3_day_input_files_witness :
    (∃ path : String,
      Runner.dayPath (⟨0, by norm_num⟩ : Fin 17) = some path ∧
        ((fun _ : String => some "data") path = none →
          Runner.dayRun (fun _ c => [c]) ⟨0, by norm_num⟩
            ⟨fun _ => some "data", []⟩ = none) ∧
        (∀ c, (fun _ : String => some "data") path = some c →
          Runner.dayRun (fun _ c => [c]) ⟨0, by norm_num⟩
              ⟨fun _ => some "data", []⟩ =
            some ⟨fun _ => some "data", [] ++ [c]⟩)) ∧
    Runner.dayRun (fun _ c => [c]) ⟨14, by norm_num⟩
        ⟨fun _ => some "data", []⟩ =
      some ⟨fun _ => some "data", [] ++ [Runner.day15Contents]⟩ :=
  ⟨(C3_day_input_files (fun _ c => [c]) ⟨0, by norm_num⟩
      ⟨fun _ => some "data", []⟩).1 (by decide),
    (C3_day_input_files (fun _ c => [c]) ⟨14, by norm_num⟩
      ⟨fun _ => some "data", []⟩).2.1 (by decide)⟩

/-- C6: each day's computation is deterministic — its printed lines are a
function of the file system alone (no dependence on previously printed
output or any other state), so two runs of the same day on equal inputs
print equal lines; in particular running a day twice in a row appends the
same segment both times. -/
theorem C6_day_determinism (P : Fin 17 → String → List String) (i : Fin 17)
    (w1 w2 : Runner.World) (hfs : w1.fs = w2.fs) :
    Runner.newOut w1 (Runner.dayRun P i w1) =
      Runner.newOut w2 (Runner.dayRun P i w2) ∧
    ∀ w' w'', Runner.dayRun P i w1 = some w' →
      Runner.dayRun P i w' = some w'' →
      w''.out.drop w'.out.length = w'.out.drop w1.out.length := by
  refine ⟨Runner.newOut_congr_fs P i w1 w2 hfs, ?_⟩
  intro w' w'' h1 h2
  unfold Runner.dayRun at h1 h2
  cases hdi : Runner.dayInput w1.fs i with
  | none =>
    rw [hdi] at h1
    exact absurd h1 (by simp)
  | some c =>
    rw [hdi] at h1
    obtain rfl : (⟨w1.fs, w1.out ++ P i c⟩ : Runner.World) = w' := by
      simpa using h1
    rw [show (⟨w1.fs, w1.out ++ P i c⟩ : Runner.World).fs = w1.fs from rfl,
      hdi] at h2
    obtain rfl :
        (⟨w1.fs, (w1.out ++ P i c) ++ P i c⟩ : Runner.World) = w'' := by
      simpa using h2
    show ((w1.out ++ P i c) ++ P i c).drop (w1.out ++ P i c).length =
      (w1.out ++ P i c).drop w1.out.length
    rw [List.drop_left, List.drop_left]

/-- Witness for `C6_day_determinism` at day 1 and two worlds differing in
their printed history but sharing a file system. -/
theorem C6_day_determinism_witness :
    ((⟨fun _ => some "d", []⟩ : Runner.World).fs =
      (⟨fun _ => some "d", ["old"]⟩ : Runner.World).fs) ∧
    (Runner.newOut ⟨fun _ => some "d", []⟩
        (Runner.dayRun (fun _ c => [c]) ⟨0, by norm_num⟩
          ⟨fun _ => some "d", []⟩) =
      Runner.newOut ⟨fun _ => some "d", ["old"]⟩
        (Runner.dayRun (fun _ c => [c]) ⟨0, by norm_num⟩
          ⟨fun _ => some "d", ["old"]⟩) ∧
      ∀ w' w'',
        Runner.dayRun (fun _ c => [c]) ⟨0, by norm_num⟩
          ⟨fun _ => some "d", []⟩ = some w' →
        Runner.dayRun (fun _ c => [c]) ⟨0, by norm_num⟩ w' = some w'' →
        w''.out.drop w'.out.length =
          w'.out.drop (⟨fun _ => some "d", []⟩ : Runner.World).out.length) :=
  ⟨rfl,
    C6_day_determinism (fun _ c => [c]) ⟨0, by norm_num⟩
      ⟨fun _ => some "d", []⟩ ⟨fun _ => some "d", ["old"]⟩ rfl⟩

/-- C7: the day modules share no mutable state — a day's run leaves the
file system (the only state any runner reads) unchanged, so running day
`i` before day `j`, as the run-all selector does, gives day `j` the same
printed lines as running day `j` alone; `main` as a whole also leaves the
file system unchanged. -/
theorem C7_no_shared_state (P : Fin 17 → String → List String)
    (i j : Fin 17) (w wi : Runner.World)
    (hi : Runner.dayRun P i w = some wi) :
    wi.fs = w.fs ∧
    Runner.newOut wi (Runner.dayRun P j wi) =
      Runner.newOut w (Runner.dayRun P j w) ∧
    ∀ (day : ℤ) (w' : Runner.World),
      Runner.mainRun P day w = some w' → w'.fs = w.fs := by
  have hfs := Runner.dayRun_fs hi
  exact ⟨hfs, Runner.newOut_congr_fs P j wi w hfs,
    fun day w' h => Runner.mainRun_fs P day w w' h⟩

/-- Witness for `C7_no_shared_state`: running day 1 and then day 2 over a
file system holding `"d"` everywhere. -/
theorem C7_no_shared_state_witness :
    (Runner.dayRun (fun _ c => [c]) ⟨0, by norm_num⟩
        ⟨fun _ => some "d", []⟩ =
      some ⟨fun _ => some "d", [] ++ ["d"]⟩) ∧
    ((⟨fun _ => some "d", [] ++ ["d"]⟩ : Runner.World).fs =
        (⟨fun _ => some "d", []⟩ : Runner.World).fs ∧
      Runner.newOut ⟨fun _ => some "d", [] ++ ["d"]⟩
          (Runner.dayRun (fun _ c => [c]) ⟨1, by norm_num⟩
            ⟨fun _ => some "d", [] ++ ["d"]⟩) =
        Runner.newOut ⟨fun _ => some "d", []⟩
          (Runner.dayRun (fun _ c => [c]) ⟨1, by norm_num⟩
            ⟨fun _ => some "d", []⟩) ∧
      ∀ (day : ℤ) (w' : Runner.World),
        Runner.mainRun (fun _ c => [c]) day ⟨fun _ => some "d", []⟩ =
          some w' →
        w'.fs = (⟨fun _ => some "d", []⟩ : Runner.World).fs) :=
  ⟨rfl,
    C7_no_shared_state (fun _ c => [c]) ⟨0, by norm_num⟩ ⟨1, by norm_num⟩
      ⟨fun _ => some "d", []⟩ ⟨fun _ => some "d", [] ++ ["d"]⟩ rfl⟩

/-! ## Claim C2 — behaviour of the three cited parsing steps -/

namespace Day14

/-- `splitEqSep` never returns the empty list of chunks. -/
theorem splitEqSep_ne_nil : ∀ cs, splitEqSep cs ≠ [] := by
  intro cs
  induction cs using splitEqSep.induct with
  | case1 => simp [splitEqSep]
  | case2 rest ih => simp [splitEqSep]
  | case3 c rest h heq ih => exact absurd heq ih
  | case4 c rest h chunk chunks heq ih =>
    rw [splitEqSep]
    · rw [heq]
      simp
    · exact h

/-- Splitting a string that starts with the separator. -/
theorem splitEqSep_sep (v : List Char) :
    splitEqSep (' ' :: '=' :: ' ' :: v) = [] :: splitEqSep v := by
  rw [splitEqSep]

/-- The generic-cons equation of `splitEqSep`, with its guard made
explicit. -/
theorem splitEqSep_cons (c : Char) (rest : List Char)
    (hc : ∀ r, ¬(c = ' ' ∧ rest = '=' :: ' ' :: r)) :
    splitEqSep (c :: rest) =
      match splitEqSep rest with
      | [] => [[c]]
      | chunk :: chunks => (c :: chunk) :: chunks := by
  rw [splitEqSep]
  intro r h1 h2
  exact hc r ⟨h1, h2⟩

/-- Splitting `pre ++ " = " ++ v` when `pre` holds no space: the first
chunk is `pre` and the rest is the split of `v`. -/
theorem splitEqSep_append_sep (pre v : List Char)
    (hp : ∀ c ∈ pre, c ≠ ' ') :
    splitEqSep (pre ++ ' ' :: '=' :: ' ' :: v) = pre :: splitEqSep v := by
  induction pre with
  | nil => simpa using splitEqSep_sep v
  | cons c cs ih =>
    have hc : c ≠ ' ' := hp c (List.mem_cons_self c cs)
    have ih' := ih (fun d hd => hp d (List.mem_cons_of_mem c hd))
    rw [List.cons_append, splitEqSep_cons c _ (fun r hr => hc hr.1), ih']

/-- A `mask` line never aborts: every payload is accepted by the bitwise
fold. -/
theorem parse_line_mask (v : List Char) :
    (parse_line (String.mk
      ('m' :: 'a' :: 's' :: 'k' :: ' ' :: '=' :: ' ' :: v))).isSome := by
  have hd : (String.mk
      ('m' :: 'a' :: 's' :: 'k' :: ' ' :: '=' :: ' ' :: v)).data
      = ['m', 'a', 's', 'k'] ++ ' ' :: '=' :: ' ' :: v := rfl
  obtain ⟨value, chunks, hv⟩ :=
    List.exists_cons_of_ne_nil (splitEqSep_ne_nil v)
  unfold parse_line
  rw [hd, splitEqSep_append_sep _ v (by decide), hv]
  dsimp only
  rw [if_pos (by decide)]
  simp

/-- A line without the `" = "` separator aborts (`expect` on the missing
value part). -/
theorem parse_line_no_sep (s : String)
    (h : (splitEqSep s.data).length = 1) : parse_line s = none := by
  cases hsp : splitEqSep s.data with
  | nil => unfold parse_line; rw [hsp]
  | cons a t =>
    cases t with
    | nil => unfold parse_line; rw [hsp]
    | cons b t2 => rw [hsp] at h; simp at h

/-- A non-`mask` instruction that fails the `mem[digits]` regex aborts
(the `panic!` arm). -/
theorem parse_line_bad_inst (pre v : List Char)
    (hp : ∀ c ∈ pre, c ≠ ' ') (hm : pre ≠ "mask".data)
    (hmm : matchMem pre = none) :
    parse_line (String.mk (pre ++ ' ' :: '=' :: ' ' :: v)) = none := by
  obtain ⟨value, chunks, hv⟩ :=
    List.exists_cons_of_ne_nil (splitEqSep_ne_nil v)
  unfold parse_line
  rw [show (String.mk (pre ++ ' ' :: '=' :: ' ' :: v)).data
      = pre ++ ' ' :: '=' :: ' ' :: v from rfl,
    splitEqSep_append_sep _ v hp, hv]
  dsimp only
  rw [if_neg hm, hmm]

/-- A `mem` instruction whose value fails to parse aborts (the `unwrap`
on the value). -/
theorem parse_line_bad_value (pre v value : List Char)
    (chunks : List (List Char))
    (hp : ∀ c ∈ pre, c ≠ ' ') (hm : pre ≠ "mask".data)
    (hv : splitEqSep v = value :: chunks)
    (hval : parseUsize (String.mk value) = none) :
    parse_line (String.mk (pre ++ ' ' :: '=' :: ' ' :: v)) = none := by
  unfold parse_line
  rw [show (String.mk (pre ++ ' ' :: '=' :: ' ' :: v)).data
      = pre ++ ' ' :: '=' :: ' ' :: v from rfl,
    splitEqSep_append_sep _ v hp, hv]
  dsimp only
  rw [if_neg hm]
  cases hmm : matchMem pre with
  | none => rfl
  | some ds =>
    rw [hval]
    dsimp only
    cases parseUsize (String.mk ds) <;> rfl

end Day14

namespace Day13

/-- Membership in day 13's schedule: `(i, b)` is kept exactly when the
`i`-th comma-separated chunk parses to `b` — failing chunks are silently
dropped while surviving ones keep their original index as offset. -/
theorem sched_mem (cs : List String) (i b : ℕ) :
    (i, b) ∈ cs.enum.filterMap
        (fun p => (parseUsize p.2).map (fun b => (p.1, b))) ↔
      ∃ s, cs[i]? = some s ∧ parseUsize s = some b := by
  rw [List.mem_filterMap]
  constructor
  · rintro ⟨⟨j, s⟩, hmem, hmap⟩
    rw [Option.map_eq_some'] at hmap
    obtain ⟨a, ha, hpair⟩ := hmap
    obtain ⟨rfl, rfl⟩ : j = i ∧ a = b := by
      constructor <;> [exact congrArg Prod.fst hpair;
        exact congrArg Prod.snd hpair]
    exact ⟨s, (List.mem_enum_iff_getElem? .. ).mp hmem, ha⟩
  · rintro ⟨s, hget, hparse⟩
    exact ⟨(i, s), (List.mem_enum_iff_getElem? ..).mpr hget,
      by rw [hparse]; rfl⟩

/-- With at least two input lines, day 13's `parse_input` succeeds exactly
when the timestamp line parses. -/
theorem parse_input_two (l1 l2 : String) (rest : List String) :
    (parse_input (l1 :: l2 :: rest)).isSome ↔ (parseUsize l1).isSome := by
  cases h : parseUsize l1 <;> simp [parse_input, h]

end Day13

/-- C2 fails as stated: day 1's `read_to_ints` silently drops a line that
fails to parse as `i32` (here `"abc"`) instead of aborting — the opposite
of the claimed fail-fast behaviour. -/
theorem C2_fail_fast_counterexample :
    parseI32 "abc" = none ∧ Day1.read_to_ints ["abc", "5"] = [5] := by
  constructor <;> decide

/-- C2 (amended): the actual failure behaviour of the three cited parsing
steps.  Day 1's `read_to_ints` never aborts and silently skips lines that
fail to parse.  Day 13's `parse_input` aborts when the timestamp line is
missing or malformed or the schedule line is missing, but silently drops
schedule entries that fail to parse, keeping surviving entries' original
indices.  Day 14's `parse_line` aborts on a line without `" = "`, on a
non-`mask` instruction failing the `mem[digits]` regex, and on a `mem`
value that fails to parse, while accepting every `mask` payload. -/
theorem C2_fail_fast :
    (∀ (xs ys : List String) (bad : String), parseI32 bad = none →
      Day1.read_to_ints (xs ++ bad :: ys) = Day1.read_to_ints (xs ++ ys)) ∧
    Day13.parse_input [] = none ∧
    (∀ l1, Day13.parse_input [l1] = none) ∧
    (∀ (l1 l2 : String) (rest : List String),
      (Day13.parse_input (l1 :: l2 :: rest)).isSome ↔
        (parseUsize l1).isSome) ∧
    (∀ (l1 l2 : String) (rest : List String) (ts : ℕ)
        (sched : List (ℕ × ℕ)) (i b : ℕ),
      Day13.parse_input (l1 :: l2 :: rest) = some (ts, sched) →
      ((i, b) ∈ sched ↔
        ∃ s, ((splitOnChar ',' l2.data).map String.mk)[i]? = some s ∧
          parseUsize s = some b)) ∧
    (∀ v : List Char,
      (Day14.parse_line (String.mk
        ('m' :: 'a' :: 's' :: 'k' :: ' ' :: '=' :: ' ' :: v))).isSome) ∧
    (∀ s : String, (Day14.splitEqSep s.data).length = 1 →
      Day14.parse_line s = none) ∧
    (∀ pre v : List Char, (∀ c ∈ pre, c ≠ ' ') → pre ≠ "mask".data →
      Day14.matchMem pre = none →
      Day14.parse_line (String.mk (pre ++ ' ' :: '=' :: ' ' :: v)) =
        none) ∧
    (∀ (pre v value : List Char) (chunks : List (List Char)),
      (∀ c ∈ pre, c ≠ ' ') → pre ≠ "mask".data →
      Day14.splitEqSep v = value :: chunks →
      parseUsize (String.mk value) = none →
      Day14.parse_line (String.mk (pre ++ ' ' :: '=' :: ' ' :: v)) =
        none) := by
  refine ⟨?_, rfl, ?_, Day13.parse_input_two, ?_, Day14.parse_line_mask,
    Day14.parse_line_no_sep, Day14.parse_line_bad_inst,
    fun pre v value chunks h1 h2 h3 h4 =>
      Day14.parse_line_bad_value pre v value chunks h1 h2 h3 h4⟩
  · intro xs ys bad h
    simp [Day1.read_to_ints, List.filterMap_append, List.filterMap_cons, h]
  · intro l1
    cases h : parseUsize l1 <;> simp [Day13.parse_input, h]
  · intro l1 l2 rest ts sched i b h
    have hs : sched =
        ((splitOnChar ',' l2.data).map String.mk).enum.filterMap
          (fun p => (parseUsize p.2).map (fun b => (p.1, b))) := by
      cases h1 : parseUsize l1 with
      | none => rw [Day13.parse_input, h1] at h; exact absurd h (by simp)
      | some t =>
        rw [Day13.parse_input, h1] at h
        dsimp only at h
        exact (congrArg Prod.snd (Option.some.inj h)).symm
    rw [hs]
    exact Day13.sched_mem _ i b

/-- Witness for `C2_fail_fast`: each conditional conjunct applied at a
concrete input — a skipped `"abc"` line for day 1, the two-line input
`"7"` / `"x,3"` for day 13 (whose unparseable `x` entry is dropped and
whose `3` keeps offset 1), and a mask line, a separator-free line, a
malformed `memx` instruction and a `mem` line with value `a` for
day 14. -/
theorem C2_fail_fast_witness :
    Day1.read_to_ints (["10"] ++ "abc" :: ["5"]) =
      Day1.read_to_ints (["10"] ++ ["5"]) ∧
    Day13.parse_input ["x"] = none ∧
    ((Day13.parse_input ["7", "x,3"]).isSome ↔ (parseUsize "7").isSome) ∧
    ((1, 3) ∈ [((1 : ℕ), (3 : ℕ))] ↔
      ∃ s, ((splitOnChar ',' ("x,3" : String).data).map String.mk)[1]? =
        some s ∧ parseUsize s = some 3) ∧
    (Day14.parse_line (String.mk
      ('m' :: 'a' :: 's' :: 'k' :: ' ' :: '=' :: ' ' ::
        ['X', '1', '0']))).isSome ∧
    Day14.parse_line (String.mk ['m', 'e', 'm']) = none ∧
    Day14.parse_line (String.mk
      (['m', 'e', 'm', 'x'] ++ ' ' :: '=' :: ' ' :: ['5'])) = none ∧
    Day14.parse_line (String.mk
      (['m', 'e', 'm', '[', '1', ']'] ++ ' ' :: '=' :: ' ' :: ['a'])) =
      none :=
  ⟨C2_fail_fast.1 ["10"] ["5"] "abc" (by decide),
   C2_fail_fast.2.2.1 "x",
   C2_fail_fast.2.2.2.1 "7" "x,3" [],
   C2_fail_fast.2.2.2.2.1 "7" "x,3" [] 7 [(1, 3)] 1 3 (by decide),
   C2_fail_fast.2.2.2.2.2.1 ['X', '1', '0'],
   C2_fail_fast.2.2.2.2.2.2.1 (String.mk ['m', 'e', 'm']) (by decide),
   C2_fail_fast.2.2.2.2.2.2.2.1 ['m', 'e', 'm', 'x'] ['5']
     (by decide) (by decide) (by decide),
   C2_fail_fast.2.2.2.2.2.2.2.2 ['m', 'e', 'm', '[', '1', ']'] ['a']
     ['a'] [] (by decide) (by decide) (by decide) (by decide)⟩

end AoC2020
